import Mathlib

/-!
Verification development for the global-styles hooks of
`packages/block-editor/src/components/global-styles/hooks.js`.

The module under study manipulates JSON-like configuration trees with the
lodash `get`/`set` dotted-path helpers, the `??` nullish-coalescing operator,
JS truthiness tests, `JSON.parse(JSON.stringify(...))` deep clones and the
`fast-deep-equal/es6` comparator.  This file gives a shallow embedding of
those primitives over a `JValue` tree type and of the four operations the
module exports (`useGlobalStylesReset`, `useGlobalSetting`, `useGlobalStyle`,
`useSettingsForBlockElement`), then proves or refutes the specification
claims about them.

Modelling notes, valid throughout:
* `JValue` mirrors a JavaScript value as this module can observe it:
  `undef` is JavaScript `undefined` (also the result of reading an absent
  property), arrays carry both their element list and their non-index string
  properties (lodash `set` can attach those), objects are ordered field
  lists (JS objects preserve insertion order; duplicate keys cannot arise
  from JS literals, a no-duplicate hypothesis is added where it matters).
* Paths are dotted strings split on `"."`, exactly how the module builds
  them by string concatenation; lodash bracket/quote path syntax is never
  used by this module and is not modelled.
* Property reads on primitives (for example `"abc".length`) are not
  modelled: the configurations navigated here are JSON trees.
* Numbers are modelled as `Int`; the module never does arithmetic on them.
-/

namespace Gutenberg

/-- A JavaScript value as observed by the hooks module: JSON data plus
`undefined`, with arrays carrying their non-index string properties. -/
inductive JValue where
  | undef
  | null
  | bool (b : Bool)
  | num (n : Int)
  | str (s : String)
  | arr (elems : List JValue) (props : List (String × JValue))
  | obj (fields : List (String × JValue))

/-- JS truthiness: `undefined`, `null`, `false`, `0` and `""` are falsy;
every object or array is truthy. -/
def truthy : JValue → Bool
  | .undef => false
  | .null => false
  | .bool b => b
  | .num n => n != 0
  | .str s => s != ""
  | .arr _ _ => true
  | .obj _ => true

/-- Nullish test: `undefined` or `null`, the values `??` falls through. -/
def isNullish : JValue → Bool
  | .undef => true
  | .null => true
  | _ => false

/-- The JS `a ?? b` operator. -/
def jcoalesce (a b : JValue) : JValue :=
  if isNullish a then b else a

/-- First-match association-list lookup, i.e. JS own-property access on an
ordered field list. -/
def lookupField : List (String × JValue) → String → Option JValue
  | [], _ => none
  | kv :: rest, k => if kv.1 = k then some kv.2 else lookupField rest k

/-- JS property assignment on an ordered field list: replace the first
occurrence in place, or append a new field. -/
def upsertField : List (String × JValue) → String → JValue → List (String × JValue)
  | [], k, v => [(k, v)]
  | kv :: rest, k, v =>
      if kv.1 = k then (k, v) :: rest else kv :: upsertField rest k v

/-- Decimal value of a digit list. -/
def digitsVal (cs : List Char) : Nat :=
  cs.foldl (fun a c => a * 10 + (c.toNat - 48)) 0

/-- lodash `isIndex`: a canonical decimal array index (no leading zero,
below 2^32 - 1). -/
def isIndexKey (s : String) : Bool :=
  match s.data with
  | [] => false
  | c :: cs =>
      (c :: cs).all (fun d => d.isDigit) &&
      (decide (c ≠ '0') || cs.isEmpty) &&
      decide (digitsVal (c :: cs) < 4294967295)

/-- Split a character list at every dot (keeping empty segments, as
lodash key parsing does for consecutive dots). -/
def splitDotAux : List Char → List Char → List String
  | [], acc => [String.mk acc.reverse]
  | c :: cs, acc =>
      if c = '.' then String.mk acc.reverse :: splitDotAux cs []
      else splitDotAux cs (c :: acc)

/-- Split a dotted path string into its segments (the effect of lodash
`stringToPath` on the plain dotted paths this module builds). -/
def splitDot (s : String) : List String :=
  splitDotAux s.data []

/-- JS array element assignment `arr[i] = x`, padding with holes (read back
as `undefined`) when `i` is past the end. -/
def setPad : List JValue → Nat → JValue → List JValue
  | [], 0, x => [x]
  | [], i + 1, x => .undef :: setPad [] i x
  | _ :: rest, 0, x => x :: rest
  | e :: rest, i + 1, x => e :: setPad rest i x

/-- One step of lodash `get`: the JS property read `v[k]` on a JSON tree.
Reads on primitives and on `null`/`undefined` give `undefined`. -/
def jgetKey : JValue → String → JValue
  | .obj fs, k => (lookupField fs k).getD .undef
  | .arr es ps, k =>
      if isIndexKey k then (es[digitsVal k.data]?).getD .undef
      else (lookupField ps k).getD .undef
  | _, _ => (.undef)

/-- One step of lodash `set`: assign `v[k] := x`, replacing a primitive
container by a fresh array (when `k` is an index) or object, as
`baseSet` does. -/
def jsetKey1 (c : JValue) (k : String) (x : JValue) : JValue :=
  match c with
  | .obj fs => .obj (upsertField fs k x)
  | .arr es ps =>
      if isIndexKey k then .arr (setPad es (digitsVal k.data) x) ps
      else .arr es (upsertField ps k x)
  | _ =>
      if isIndexKey k then .arr (setPad [] (digitsVal k.data) x) []
      else .obj [(k, x)]

/-- lodash `get` along a segment list. -/
def jgetSegs : JValue → List String → JValue
  | v, [] => v
  | v, k :: rest => jgetSegs (jgetKey v k) rest

/-- lodash `set` along a segment list: walk existing containers, create
missing ones, assign at the end. -/
def jsetSegs : JValue → List String → JValue → JValue
  | _, [], v => v
  | c, k :: rest, v => jsetKey1 c k (jsetSegs (jgetKey c k) rest v)

/-- lodash `get(object, path)` with a dotted string path. -/
def jget (v : JValue) (path : String) : JValue :=
  jgetSegs v (splitDot path)

/-- lodash `set(object, path, x)` with a dotted string path. -/
def jset (v : JValue) (path : String) (x : JValue) : JValue :=
  jsetSegs v (splitDot path) x

/-! fast-deep-equal/es6 restricted to the values of this model: arrays
compare by length and elements (ignoring extra string properties, which
`Object.keys` of a JS array does not enumerate as the comparator walks
elements by index), objects by key count and per-key recursion
(insertion-order insensitive), primitives by strict equality. -/
mutual

/-- fast-deep-equal/es6 on two values. -/
def fde : JValue → JValue → Bool
  | .arr a _, .arr b _ => fdeElems a b
  | .obj a, .obj b => (a.length == b.length) && fdeFields a b
  | .undef, .undef => true
  | .null, .null => true
  | .bool x, .bool y => x == y
  | .num x, .num y => x == y
  | .str x, .str y => x == y
  | _, _ => false

def fdeElems : List JValue → List JValue → Bool
  | [], [] => true
  | x :: xs, y :: ys => fde x y && fdeElems xs ys
  | _, _ => false

def fdeFields : List (String × JValue) → List (String × JValue) → Bool
  | [], _ => true
  | kv :: rest, bfs =>
      (match lookupField bfs kv.1 with
       | some w => fde kv.2 w
       | none => false) && fdeFields rest bfs

end

/-! The `JSON.parse(JSON.stringify(x))` deep clone at the value level:
object fields whose value is `undefined` are dropped, array holes and
`undefined` elements become `null`, non-index array properties are
dropped.  (A non-JSON top-level value would throw in JS; the module only
ever clones configuration objects.) -/
mutual

/-- JSON round-trip clone of one value. -/
def deepCloneValue : JValue → JValue
  | .arr es _ => .arr (cloneElems es) []
  | .obj fs => .obj (cloneFields fs)
  | v => v

def cloneElems : List JValue → List JValue
  | [] => []
  | .undef :: rest => .null :: cloneElems rest
  | e :: rest => deepCloneValue e :: cloneElems rest

def cloneFields : List (String × JValue) → List (String × JValue)
  | [] => []
  | (_, .undef) :: rest => cloneFields rest
  | (k, v) :: rest => (k, deepCloneValue v) :: cloneFields rest

end

/-! ### The hooks, embedded as pure functions of their context -/

/-- The `GlobalStylesContext` value after destructuring `setUserConfig`
away: exactly the three configuration views. -/
structure Configs where
  merged : JValue
  base : JValue
  user : JValue

/-- `EMPTY_CONFIG` from the source. -/
def EMPTY_CONFIG : JValue := .obj [("settings", .obj []), ("styles", .obj [])]

/-- `canReset` of `useGlobalStylesReset`:
`!! config && ! fastDeepEqual( config, EMPTY_CONFIG )`. -/
def canReset (config : JValue) : Bool :=
  truthy config && ! fde config EMPTY_CONFIG

/-- The updater `useGlobalStylesReset` passes to `setUserConfig`:
`() => EMPTY_CONFIG`, ignoring the current configuration. -/
def resetUpdater (_currentConfig : JValue) : JValue := EMPTY_CONFIG

/-- `VALID_SETTINGS` from the source, in source order. -/
def VALID_SETTINGS : List String := [
  "appearanceTools",
  "useRootPaddingAwareAlignments",
  "border.color",
  "border.radius",
  "border.style",
  "border.width",
  "shadow.presets",
  "shadow.defaultPresets",
  "color.background",
  "color.custom",
  "color.customDuotone",
  "color.customGradient",
  "color.defaultDuotone",
  "color.defaultGradients",
  "color.defaultPalette",
  "color.duotone",
  "color.gradients",
  "color.link",
  "color.palette",
  "color.text",
  "custom",
  "dimensions.minHeight",
  "layout.contentSize",
  "layout.definitions",
  "layout.wideSize",
  "position.fixed",
  "position.sticky",
  "spacing.customSpacingSize",
  "spacing.spacingSizes",
  "spacing.spacingScale",
  "spacing.blockGap",
  "spacing.margin",
  "spacing.padding",
  "spacing.units",
  "typography.fuild",
  "typography.customFontSize",
  "typography.dropCap",
  "typography.fontFamilies",
  "typography.fontSizes",
  "typography.fontStyle",
  "typography.fontWeight",
  "typography.letterSpacing",
  "typography.lineHeight",
  "typography.textDecoration",
  "typography.textTransform"]

/-- `blockName ? '.blocks.' + blockName : ''` (an absent or empty block
name is falsy). -/
def appendedBlockPath : Option String → String
  | some b => ".blocks." ++ b
  | none => ""

/-- `propertyPath ? '.' + propertyPath : ''`. -/
def appendedPropertyPath : Option String → String
  | some p => "." ++ p
  | none => ""

/-- The property names of `Object.prototype`, which the bracket read
`configs[sourceKey]` finds through the prototype chain of the plain rest
object.  Each inherited value is a function (or, for `__proto__`, the
`Object.prototype` object itself): a truthy value with no own property
named `settings`.  The module only tests the result's truthiness and
reads dotted paths starting with `settings` out of it, so the model
represents every inherited member by the truthy empty object, which
those two operations cannot distinguish from the real inherited value. -/
def objectPrototypeKeys : List String :=
  ["constructor", "hasOwnProperty", "isPrototypeOf", "propertyIsEnumerable",
   "toLocaleString", "toString", "valueOf", "__proto__", "__defineGetter__",
   "__defineSetter__", "__lookupGetter__", "__lookupSetter__"]

/-- The bracket read `{...configs}[k]`: the rest object's own properties
are exactly the three views; any other key falls through to the
`Object.prototype` chain (see `objectPrototypeKeys`), and only a key
found nowhere on the chain yields `undefined`. -/
def viewByKey (cfgs : Configs) (k : String) : JValue :=
  if k = "merged" then cfgs.merged
  else if k = "base" then cfgs.base
  else if k = "user" then cfgs.user
  else if objectPrototypeKeys.contains k then .obj []
  else (.undef)

/-- `source === 'all' ? 'merged' : source`. -/
def sourceKeyOf (source : String) : String :=
  if source = "all" then "merged" else source

/-- The view `configs[ sourceKey ]` that `useGlobalSetting` reads from. -/
def chosenView (cfgs : Configs) (source : String) : JValue :=
  viewByKey cfgs (sourceKeyOf source)

/-- The block-scoped-with-global-fallback resolution of one setting path
(lines 107-111 of the source):
`get(configToUse, 'settings' + abp + '.' + s) ?? get(configToUse, 'settings.' + s)`. -/
def resolveSetting (configToUse : JValue) (abp : String) (s : String) : JValue :=
  jcoalesce (jget configToUse ("settings" ++ abp ++ "." ++ s))
    (jget configToUse ("settings." ++ s))

/-- The bulk (path omitted) read of `useGlobalSetting`: fold over
`VALID_SETTINGS`, `set`ting into an initially empty result every path
whose resolution is truthy. -/
def bulkSettings (configToUse : JValue) (abp : String) : JValue :=
  VALID_SETTINGS.foldl
    (fun acc s =>
      let value := resolveSetting configToUse abp s
      if truthy value then jset acc s value else acc)
    (.obj [])

/-- The value read by `useGlobalSetting(propertyPath, blockName, source)`;
`Except.error` models the thrown `'Unsupported source'` string. -/
def getSetting (cfgs : Configs) (propertyPath blockName : Option String)
    (source : String) : Except String JValue :=
  let abp := appendedBlockPath blockName
  let contextualPath := "settings" ++ abp ++ appendedPropertyPath propertyPath
  let globalPath := "settings" ++ appendedPropertyPath propertyPath
  let configToUse := chosenView cfgs source
  if ! truthy configToUse then .error "Unsupported source"
  else match propertyPath with
    | some _ =>
        .ok (jcoalesce (jget configToUse contextualPath) (jget configToUse globalPath))
    | none => .ok (bulkSettings configToUse abp)

/-- The new user configuration produced by `setSetting(newValue)`:
deep-clone the current user configuration, then `set` at
`contextualPath`.  (The written path never depends on `source`.) -/
def setSetting (currentConfig : JValue) (propertyPath blockName : Option String)
    (newValue : JValue) : JValue :=
  let contextualPath :=
    "settings" ++ appendedBlockPath blockName ++ appendedPropertyPath propertyPath
  jset (deepCloneValue currentConfig) contextualPath newValue

/-- `finalPath` of `useGlobalStyle`. -/
def finalPath (path blockName : Option String) : String :=
  match blockName with
  | none => "styles" ++ appendedPropertyPath path
  | some b => "styles.blocks." ++ b ++ appendedPropertyPath path

/-- The value read by `useGlobalStyle(path, blockName, source,
{shouldDecodeEncode})`.  `getValueFromVariable` lives in `./utils`, outside
this module; it is taken as the function parameter `gvfv`, applied exactly
where the source applies it. -/
def getStyle (cfgs : Configs) (path blockName : Option String) (source : String)
    (shouldDecodeEncode : Bool)
    (gvfv : JValue → Option String → JValue → JValue) : Except String JValue :=
  let fp := finalPath path blockName
  if source = "all" then
    let rawResult :=
      if fp = "styles.css" then jget cfgs.user fp else jget cfgs.merged fp
    .ok (if shouldDecodeEncode then gvfv cfgs.merged blockName rawResult else rawResult)
  else if source = "user" then
    let rawResult := jget cfgs.user fp
    .ok (if shouldDecodeEncode then gvfv cfgs.merged blockName rawResult else rawResult)
  else if source = "base" then
    let rawResult := jget cfgs.base fp
    .ok (if shouldDecodeEncode then gvfv cfgs.base blockName rawResult else rawResult)
  else .error "Unsupported source"

/-- The new user configuration produced by `setStyle(newValue)`:
deep-clone the current user configuration, then `set` at `finalPath` the
new value, encoded through `getPresetVariableFromValue` (parameter `gpv`,
external to this module) when `shouldDecodeEncode` is set. -/
def setStyle (cfgs : Configs) (path blockName : Option String)
    (shouldDecodeEncode : Bool)
    (gpv : JValue → Option String → Option String → JValue → JValue)
    (currentConfig newValue : JValue) : JValue :=
  jset (deepCloneValue currentConfig) (finalPath path blockName)
    (if shouldDecodeEncode then
       gpv (jgetKey cfgs.merged "settings") blockName path newValue
     else newValue)

/-! ### `useSettingsForBlockElement` (the capability filter) -/

/-- The own fields an object spread `{...v}` contributes.  (Spreading the
index properties of an array or string is not modelled: the settings
sections spread here are plain objects.) -/
def objFieldsOf : JValue → List (String × JValue)
  | .obj fs => fs
  | _ => []

/-- `{ ...v, k: x }` (equivalently, property assignment when `v` is
already an object). -/
def spreadSet (v : JValue) (k : String) (x : JValue) : JValue :=
  .obj (upsertField (objFieldsOf v) k x)

/-- `updatedSettings.section = { ...updatedSettings.section, kvs... }`:
rebuild one section with some keys overridden. -/
def sectionSet (settings : JValue) (sec : String)
    (kvs : List (String × JValue)) : JValue :=
  spreadSet settings sec
    (.obj (kvs.foldl (fun fs kv => upsertField fs kv.1 kv.2)
      (objFieldsOf (jgetKey settings sec))))

/-- `supports?.spacing?.[key]` resolved to the declared sides list:
the declaration itself when it is an array, else its `.sides` member
(lines 285-287 of the source). -/
def sidesFor (supports : JValue) (key : String) : JValue :=
  let sk := jgetKey (jgetKey supports "spacing") key
  match sk with
  | .arr a p => .arr a p
  | _ => jgetKey sk "sides"

/-- Truthiness of `sides?.length` (line 288): `undefined` for a nullish
or primitive `sides`, the length of an array or string, the `length`
member of an object. -/
def sidesLengthTruthy (sides : JValue) : Bool :=
  match sides with
  | .arr es _ => es.length != 0
  | .str s => s.length != 0
  | .obj fs => truthy ((lookupField fs "length").getD .undef)
  | _ => false

/-- One iteration of the spacing `forEach` (lines 277-297): disable the
feature when unsupported, then merge in a declared side-restriction
whenever `sides?.length` is truthy. -/
def spacingStep (supportedStyles : List String) (supports : JValue)
    (acc : JValue) (key : String) : JValue :=
  let acc1 :=
    if ! supportedStyles.contains key then
      sectionSet acc "spacing" [(key, .bool false)]
    else acc
  let sides := sidesFor supports key
  if sidesLengthTruthy sides then
    sectionSet acc1 "spacing"
      [(key, spreadSet (jgetKey (jgetKey acc1 "spacing") key) "sides" sides)]
  else acc1

/-- One iteration of the typography `forEach` (lines 252-266). -/
def typographyStep (supportedStyles : List String) (acc : JValue)
    (key : String) : JValue :=
  if ! supportedStyles.contains key then
    sectionSet acc "typography" [(key, .bool false)]
  else acc

/-- One iteration of the layout `forEach` (lines 268-275). -/
def layoutStep (supportedStyles : List String) (acc : JValue)
    (key : String) : JValue :=
  if ! supportedStyles.contains key then
    sectionSet acc "layout" [(key, .bool false)]
  else acc

/-- Lines 237-266 of the source: the fontSize and fontFamily overrides
followed by the six-key typography `forEach`. -/
def filterTypographyStage (supportedStyles : List String) (u0 : JValue) : JValue :=
  let u1 :=
    if ! supportedStyles.contains "fontSize" then
      sectionSet u0 "typography"
        [("fontSizes", .obj []), ("customFontSize", .bool false)]
    else u0
  let u2 :=
    if ! supportedStyles.contains "fontFamily" then
      sectionSet u1 "typography" [("fontFamilies", .obj [])]
    else u1
  ["lineHeight", "fontStyle", "fontWeight", "letterSpacing",
    "textTransform", "textDecoration"].foldl (typographyStep supportedStyles) u2

/-- Lines 268-275: the layout `forEach`. -/
def filterLayoutStage (supportedStyles : List String) (u : JValue) : JValue :=
  ["contentSize", "wideSize"].foldl (layoutStep supportedStyles) u

/-- Lines 277-297: the spacing `forEach`. -/
def filterSpacingStage (supportedStyles : List String) (supports u : JValue) :
    JValue :=
  ["padding", "margin", "blockGap"].foldl
    (spacingStep supportedStyles supports) u

/-- Lines 299-304: the minHeight override. -/
def filterDimensionsStage (supportedStyles : List String) (u : JValue) : JValue :=
  if ! supportedStyles.contains "minHeight" then
    sectionSet u "dimensions" [("minHeight", .bool false)]
  else u

/-- The memoized body of `useSettingsForBlockElement`: `supportedStyles`
and `supports` are what the block-registry selector returns for the block
name and element; the stages run in source order over the spread-copied
parent settings. -/
def filterSettingsForBlock (parentSettings : JValue)
    (supportedStyles : List String) (supports : JValue) : JValue :=
  filterDimensionsStage supportedStyles
    (filterSpacingStage supportedStyles supports
      (filterLayoutStage supportedStyles
        (filterTypographyStage supportedStyles (.obj (objFieldsOf parentSettings)))))

/-- Boolean segment-list prefix test. -/
def segsLe : List String → List String → Bool
  | [], _ => true
  | _ :: _, [] => false
  | a :: as, b :: bs => a == b && segsLe as bs

/-- All path segments are plain (non-index) keys, each path is nonempty,
and no listed path is a segment-prefix of another (`VALID_SETTINGS`
satisfies this by computation). -/
def goodPathList : List String → Bool
  | [] => true
  | s :: rest =>
      (! (splitDot s).isEmpty) &&
      ((splitDot s).all (fun k => ! isIndexKey k)) &&
      (rest.all (fun t =>
        ! segsLe (splitDot s) (splitDot t) &&
        ! segsLe (splitDot t) (splitDot s))) &&
      goodPathList rest

/-- Whether a value is a JS object. -/
def isObjB : JValue → Bool
  | .obj _ => true
  | _ => false

/-! ### A small heap model of JS object identity

Claim C6 is about mutation and object identity, which the value model
cannot express.  Here JS objects and arrays live in a heap of numbered
cells; field values are primitives or references.  `hset` is the mutating
lodash `set`, `cloneVal` is the `JSON.parse(JSON.stringify(...))` clone
(fuel-indexed, since `JSON.stringify` diverges on cyclic structures), and
`readVal` extracts the value tree a reference denotes. -/

/-- A field value in the heap model: a primitive or a reference. -/
inductive HVal where
  | undef
  | null
  | bool (b : Bool)
  | num (n : Int)
  | str (s : String)
  | ref (r : Nat)
deriving DecidableEq

/-- A heap cell: a JS object or array. -/
inductive HNode where
  | obj (fields : List (String × HVal))
  | arr (elems : List HVal) (props : List (String × HVal))
deriving DecidableEq

/-- A heap: cells indexed by address, plus the next fresh address. -/
structure Heap where
  cells : List (Nat × HNode)
  next : Nat
deriving DecidableEq

/-- First-match cell lookup. -/
def lookupCell (h : Heap) (r : Nat) : Option HNode :=
  go h.cells r
where
  go : List (Nat × HNode) → Nat → Option HNode
    | [], _ => none
    | c :: rest, r => if c.1 = r then some c.2 else go rest r

/-- Replace the cell at an address (or add it if absent). -/
def updateCell (h : Heap) (r : Nat) (n : HNode) : Heap :=
  { h with cells := go h.cells r n }
where
  go : List (Nat × HNode) → Nat → HNode → List (Nat × HNode)
    | [], r, n => [(r, n)]
    | c :: rest, r, n => if c.1 = r then (r, n) :: rest else c :: go rest r n

/-- Allocate a fresh cell; returns its address. -/
def allocCell (h : Heap) (n : HNode) : Heap × Nat :=
  ({ cells := h.cells ++ [(h.next, n)], next := h.next + 1 }, h.next)

/-- First-match association lookup over heap field lists. -/
def lookupHF : List (String × HVal) → String → Option HVal
  | [], _ => none
  | kv :: rest, k => if kv.1 = k then some kv.2 else lookupHF rest k

/-- Property assignment over heap field lists. -/
def upsertHF : List (String × HVal) → String → HVal → List (String × HVal)
  | [], k, v => [(k, v)]
  | kv :: rest, k, v =>
      if kv.1 = k then (k, v) :: rest else kv :: upsertHF rest k v

/-- Array element assignment with hole padding, heap version. -/
def setPadH : List HVal → Nat → HVal → List HVal
  | [], 0, x => [x]
  | [], i + 1, x => .undef :: setPadH [] i x
  | _ :: rest, 0, x => x :: rest
  | e :: rest, i + 1, x => e :: setPadH rest i x

/-- The property read `node[k]`. -/
def nodeGet (n : HNode) (k : String) : HVal :=
  match n with
  | .obj fs => (lookupHF fs k).getD .undef
  | .arr es ps =>
      if isIndexKey k then (es[digitsVal k.data]?).getD .undef
      else ((lookupHF ps k).getD .undef)

/-- The property assignment `node[k] := x`. -/
def nodeSet (n : HNode) (k : String) (x : HVal) : HNode :=
  match n with
  | .obj fs => .obj (upsertHF fs k x)
  | .arr es ps =>
      if isIndexKey k then .arr (setPadH es (digitsVal k.data) x) ps
      else .arr es (upsertHF ps k x)

/-- The references a node stores. -/
def refsOfNode (n : HNode) : List Nat :=
  match n with
  | .obj fs => fs.filterMap refOf
  | .arr es ps => es.filterMap refOfV ++ ps.filterMap refOf
where
  refOfV : HVal → Option Nat
    | .ref r => some r
    | _ => none
  refOf : String × HVal → Option Nat
    | (_, .ref r) => some r
    | _ => none

/-- The mutating lodash `set` starting at the cell `r`: walk existing
container children, allocate a fresh empty container (array when the next
key is an index) over a primitive child, assign the last key in place. -/
def hset (h : Heap) (r : Nat) : List String → HVal → Heap
  | [], _ => h
  | [k], v => updateCell h r (nodeSet ((lookupCell h r).getD (.obj [])) k v)
  | k :: k2 :: rest, v =>
      match nodeGet ((lookupCell h r).getD (.obj [])) k with
      | .ref rc => hset h rc (k2 :: rest) v
      | _ =>
          let fresh : HNode := if isIndexKey k2 then .arr [] [] else .obj []
          hset (updateCell (allocCell h fresh).1 r
              (nodeSet ((lookupCell h r).getD (.obj [])) k
                (.ref (allocCell h fresh).2)))
            (allocCell h fresh).2 (k2 :: rest) v

/-- Map a fallible function over a list, failing if any element fails. -/
def mapOpt (f : α → Option β) : List α → Option (List β)
  | [] => some []
  | a :: rest =>
      match f a, mapOpt f rest with
      | some b, some bs => some (b :: bs)
      | _, _ => none

/-- Fold a fallible step over a list, failing if any step fails. -/
def foldOpt (g : σ → β → Option σ) : σ → List β → Option σ
  | st, [] => some st
  | st, b :: rest =>
      match g st b with
      | some st2 => foldOpt g st2 rest
      | none => none

/-- `JSON.parse(JSON.stringify(v))` in the heap: rebuild the whole
structure in fresh cells, dropping `undefined`-valued object fields and
array properties, turning `undefined` array elements into `null`.  Fuel
bounds the recursion depth (`JSON.stringify` throws on cycles); `none`
means the fuel ran out. -/
def cloneVal : Nat → Heap → HVal → Option (Heap × HVal)
  | 0, _, _ => none
  | fuel + 1, h, v =>
      match v with
      | .ref r =>
          match lookupCell h r with
          | some (.obj fs) =>
              match foldOpt (fun acc kv =>
                  match kv.2 with
                  | .undef => some acc
                  | w =>
                      match cloneVal fuel acc.1 w with
                      | some (h2, w2) => some (h2, acc.2 ++ [(kv.1, w2)])
                      | none => none) (h, ([] : List (String × HVal))) fs with
              | some (h1, fs1) =>
                  some ((allocCell h1 (.obj fs1)).1,
                    .ref (allocCell h1 (.obj fs1)).2)
              | none => none
          | some (.arr es _) =>
              match foldOpt (fun acc e =>
                  match e with
                  | .undef => some (acc.1, acc.2 ++ [HVal.null])
                  | w =>
                      match cloneVal fuel acc.1 w with
                      | some (h2, w2) => some (h2, acc.2 ++ [w2])
                      | none => none) (h, ([] : List HVal)) es with
              | some (h1, es1) =>
                  some ((allocCell h1 (.arr es1 [])).1,
                    .ref (allocCell h1 (.arr es1 [])).2)
              | none => none
          | none => none
      | w => some (h, w)

/-- Read the value tree a heap value denotes, fuel-bounded. -/
def readVal : Nat → Heap → HVal → Option JValue
  | 0, _, _ => none
  | fuel + 1, h, v =>
      match v with
      | .undef => some .undef
      | .null => some .null
      | .bool b => some (.bool b)
      | .num n => some (.num n)
      | .str s => some (.str s)
      | .ref r =>
          match lookupCell h r with
          | some (.obj fs) =>
              match mapOpt (fun kv =>
                  match readVal fuel h kv.2 with
                  | some j => some (kv.1, j)
                  | none => none) fs with
              | some fs2 => some (.obj fs2)
              | none => none
          | some (.arr es ps) =>
              match mapOpt (readVal fuel h) es,
                  mapOpt (fun kv =>
                    match readVal fuel h kv.2 with
                    | some j => some (kv.1, j)
                    | none => none) ps with
              | some es2, some ps2 => some (.arr es2 ps2)
              | _, _ => none
          | none => none

/-- Every cell address is below `next`, and every stored reference points
at an existing cell (what any reachable JS heap satisfies), as one
scan. -/
def heapOk (h : Heap) : Bool :=
  h.cells.all (fun c =>
    decide (c.1 < h.next) &&
    (refsOfNode c.2).all (fun r2 => (lookupCell h r2).isSome))

/-- The updater `setUserConfig` receives from `setSetting`/`setStyle`, in
the heap model: deep-clone the current user configuration `cur`, mutate
the clone at `segs` with `hset`, return the clone's (new) root.  `none`
models the clone running out of fuel. -/
def cloneThenSet (fuel : Nat) (h : Heap) (cur : Nat) (segs : List String)
    (v : HVal) : Option (Heap × Nat) :=
  match cloneVal fuel h (.ref cur) with
  | some (h1, .ref r1) => some (hset h1 r1 segs v, r1)
  | _ => none

/-- Every cell address lies below the heap's `next` fresh address. -/
def domLtP (h : Heap) : Prop :=
  ∀ r, (lookupCell h r).isSome → r < h.next

/-- Every reference stored in any cell points at an existing cell. -/
def closedRefsP (h : Heap) : Prop :=
  ∀ r n, lookupCell h r = some n → ∀ x ∈ refsOfNode n, (lookupCell h x).isSome

/-- Cells at addresses `≥ N` store only references `≥ N`. -/
def highClosedP (N : Nat) (h : Heap) : Prop :=
  ∀ r n, N ≤ r → lookupCell h r = some n → ∀ x ∈ refsOfNode n, N ≤ x

/-- Heap extension as the clone produces it: `next` grows, cells below the
old `next` are untouched, and every cell at or above the old `next` points
only at or above the old `next`. -/
def extH (h h2 : Heap) : Prop :=
  h.next ≤ h2.next ∧
  (∀ r, r < h.next → lookupCell h2 r = lookupCell h r) ∧
  highClosedP h.next h2

/-! ### Core lemmas about the lodash `get`/`set` embedding -/

theorem lookupField_upsert_self (fs : List (String × JValue)) (k : String)
    (v : JValue) : lookupField (upsertField fs k v) k = some v := by
  induction fs with
  | nil => simp [upsertField, lookupField]
  | cons kv rest ih =>
      by_cases h : kv.1 = k
      · simp [upsertField, h, lookupField]
      · simp [upsertField, h, lookupField, ih]

theorem lookupField_upsert_ne (fs : List (String × JValue)) (k k2 : String)
    (v : JValue) (h : k ≠ k2) :
    lookupField (upsertField fs k v) k2 = lookupField fs k2 := by
  induction fs with
  | nil => simp [upsertField, lookupField, h]
  | cons kv rest ih =>
      by_cases h1 : kv.1 = k
      · simp [upsertField, h1, lookupField, h]
      · simp [upsertField, h1, lookupField, ih]

theorem setPad_get_self : ∀ (es : List JValue) (i : Nat) (x : JValue),
    (setPad es i x)[i]? = some x
  | [], 0, x => rfl
  | [], i + 1, x => by simpa [setPad] using setPad_get_self [] i x
  | _ :: _, 0, _ => by simp [setPad]
  | _ :: rest, i + 1, x => by simpa [setPad] using setPad_get_self rest i x

theorem setPad_get_ne : ∀ (es : List JValue) (i : Nat) (x : JValue) (j : Nat),
    i ≠ j → ((setPad es i x)[j]?).getD .undef = (es[j]?).getD .undef
  | [], 0, x, 0, h => absurd rfl h
  | [], 0, x, _ + 1, _ => by simp [setPad]
  | [], i + 1, x, 0, _ => by simp [setPad]
  | [], i + 1, x, j + 1, h => by
      simpa [setPad] using setPad_get_ne [] i x j (by omega)
  | _ :: _, 0, x, 0, h => absurd rfl h
  | e :: rest, 0, x, j + 1, _ => by simp [setPad]
  | e :: rest, i + 1, x, 0, _ => by simp [setPad]
  | e :: rest, i + 1, x, j + 1, h => by
      simpa [setPad] using setPad_get_ne rest i x j (by omega)

theorem jgetKey_jsetKey1_self (c : JValue) (k : String) (x : JValue) :
    jgetKey (jsetKey1 c k x) k = x := by
  cases c with
  | obj fs => simp [jsetKey1, jgetKey, lookupField_upsert_self]
  | arr es ps =>
      by_cases h : isIndexKey k = true
      · simp [jsetKey1, h, jgetKey, setPad_get_self]
      · simp [jsetKey1, h, jgetKey, lookupField_upsert_self]
  | undef =>
      by_cases h : isIndexKey k = true
      · simp [jsetKey1, h, jgetKey, setPad_get_self]
      · simp [jsetKey1, h, jgetKey, lookupField]
  | null =>
      by_cases h : isIndexKey k = true
      · simp [jsetKey1, h, jgetKey, setPad_get_self]
      · simp [jsetKey1, h, jgetKey, lookupField]
  | bool b =>
      by_cases h : isIndexKey k = true
      · simp [jsetKey1, h, jgetKey, setPad_get_self]
      · simp [jsetKey1, h, jgetKey, lookupField]
  | num n =>
      by_cases h : isIndexKey k = true
      · simp [jsetKey1, h, jgetKey, setPad_get_self]
      · simp [jsetKey1, h, jgetKey, lookupField]
  | str s =>
      by_cases h : isIndexKey k = true
      · simp [jsetKey1, h, jgetKey, setPad_get_self]
      · simp [jsetKey1, h, jgetKey, lookupField]

theorem jgetKey_jsetKey1_ne (c : JValue) (k k2 : String) (x : JValue)
    (hne : k ≠ k2) (hidx : isIndexKey k = false) :
    jgetKey (jsetKey1 c k x) k2 = jgetKey c k2 := by
  cases c with
  | obj fs => simp [jsetKey1, jgetKey, lookupField_upsert_ne _ _ _ _ hne]
  | arr es ps =>
      by_cases h2 : isIndexKey k2 = true
      · simp [jsetKey1, hidx, jgetKey, h2]
      · simp [jsetKey1, hidx, jgetKey, h2, lookupField_upsert_ne _ _ _ _ hne]
  | undef => simp [jsetKey1, hidx, jgetKey, lookupField, hne]
  | null => simp [jsetKey1, hidx, jgetKey, lookupField, hne]
  | bool b => simp [jsetKey1, hidx, jgetKey, lookupField, hne]
  | num n => simp [jsetKey1, hidx, jgetKey, lookupField, hne]
  | str s => simp [jsetKey1, hidx, jgetKey, lookupField, hne]

/-- Setting a path and reading it back yields the written value, for any
starting value (lodash `get`-after-`set`). -/
theorem jgetSegs_jsetSegs_self : ∀ (segs : List String) (c v : JValue),
    jgetSegs (jsetSegs c segs v) segs = v
  | [], _, _ => rfl
  | k :: rest, c, v => by
      simp [jsetSegs, jgetSegs, jgetKey_jsetKey1_self,
        jgetSegs_jsetSegs_self rest]

/-- Setting at a path all of whose segments are non-index keys leaves the
value at every prefix-unrelated path unchanged. -/
theorem jget_jset_unrel : ∀ (p q : List String),
    (∀ k ∈ p, isIndexKey k = false) → segsLe p q = false → segsLe q p = false →
    ∀ (c v : JValue), jgetSegs (jsetSegs c p v) q = jgetSegs c q
  | [], q, _, hpq, _, _, _ => by simp [segsLe] at hpq
  | _ :: _, [], _, _, hqp, _, _ => by simp [segsLe] at hqp
  | a :: as, b :: bs, hidx, hpq, hqp, c, v => by
      by_cases hab : a = b
      · subst hab
        simp only [segsLe, beq_self_eq_true, Bool.true_and] at hpq hqp
        simp only [jsetSegs, jgetSegs, jgetKey_jsetKey1_self]
        exact jget_jset_unrel as bs (fun k hk => hidx k (List.mem_cons_of_mem _ hk))
          hpq hqp (jgetKey c a) v
      · simp only [jsetSegs, jgetSegs]
        rw [jgetKey_jsetKey1_ne _ _ _ _ hab (hidx a (List.mem_cons_self _ _))]

/-- Reading any path out of `undefined` gives `undefined`. -/
theorem jgetSegs_undef : ∀ (q : List String), jgetSegs .undef q = .undef
  | [] => rfl
  | _ :: rest => by simp [jgetSegs, jgetKey, jgetSegs_undef rest]

/-- Reading a nonempty path out of the empty object gives `undefined`. -/
theorem jgetSegs_emptyObj (q : List String) (hq : q ≠ []) :
    jgetSegs (.obj []) q = .undef := by
  match q with
  | [] => exact absurd rfl hq
  | k :: rest => simp [jgetSegs, jgetKey, lookupField, jgetSegs_undef]

theorem splitDotAux_ne_nil : ∀ (cs acc : List Char), splitDotAux cs acc ≠ []
  | [], acc => by simp [splitDotAux]
  | c :: cs, acc => by
      by_cases h : c = '.'
      · simp [splitDotAux, h]
      · simpa [splitDotAux, h] using splitDotAux_ne_nil cs (c :: acc)

theorem splitDot_ne_nil (s : String) : splitDot s ≠ [] :=
  splitDotAux_ne_nil _ _


/-! ### Claim C10: writes are always block-scoped -/

/-- C10: for every current user configuration, path `P`, block name `B`
and new value, `setSetting` writes at the block-scoped path
`settings.blocks.B.P` when `B` is given and at `settings.P` when it is
omitted: reading that path out of the returned configuration yields
exactly the written value.  `setSetting` does not consult the `source`
argument or the location a prior read resolved from (it takes neither as
input), so the written path cannot depend on them. -/
theorem C10_write_at_contextual_path (cur v : JValue) (P B : String) :
    jget (setSetting cur (some P) (some B) v)
        ("settings" ++ (".blocks." ++ B) ++ ("." ++ P)) = v ∧
    jget (setSetting cur (some P) none v) ("settings" ++ ("." ++ P)) = v :=
  ⟨jgetSegs_jsetSegs_self _ _ _, jgetSegs_jsetSegs_self _ _ _⟩

/-! ### Claim C5: decode:false read/write round-trip -/

/-- C5: reading a style with source `user` and `decode:false`, then
writing the result back through the `decode:false` setter, leaves the
value at the resolved styles path unchanged: the value read equals the
value stored at `finalPath` in the user view, and reading `finalPath`
out of the newly produced user configuration returns it again. -/
theorem C5_roundtrip (cfgs : Configs) (P B : Option String) (v : JValue)
    (f : JValue → Option String → JValue → JValue)
    (g : JValue → Option String → Option String → JValue → JValue)
    (hread : getStyle cfgs P B "user" false f = .ok v) :
    jget (setStyle cfgs P B false g cfgs.user v) (finalPath P B) = v ∧
    v = jget cfgs.user (finalPath P B) := by
  have h2 : (Except.ok (jget cfgs.user (finalPath P B)) :
      Except String JValue) = .ok v := hread
  have hv : jget cfgs.user (finalPath P B) = v := by
    cases h2; rfl
  exact ⟨jgetSegs_jsetSegs_self _ _ _, hv.symm⟩

/-- Witness for C5 at a concrete configuration. -/
theorem C5_roundtrip_witness :
    jget (setStyle ⟨.obj [], .obj [],
        .obj [("styles", .obj [("color", .str "red")])]⟩ (some "color") none
        false (fun _ _ _ v => v)
        (JValue.obj [("styles", .obj [("color", .str "red")])]) (.str "red"))
      (finalPath (some "color") none) = .str "red" ∧
    JValue.str "red" =
      jget (JValue.obj [("styles", .obj [("color", .str "red")])])
        (finalPath (some "color") none) :=
  C5_roundtrip ⟨.obj [], .obj [],
    .obj [("styles", .obj [("color", .str "red")])]⟩ (some "color") none
    (.str "red") (fun _ _ r => r) (fun _ _ _ v => v) rfl

/-! ### Claim C2: the styles.css read comes from the user view -/

/-- C2: with path `css`, no block name and source `all`, the raw style
read comes from the user view at `styles.css` — exactly the stored value,
empty string or `undefined` included, never the merged or base value;
for every other resolved path, source `all` reads the merged view.
(Stated for `decode:false`, where the returned value is the raw read
itself; the `decode:true` variant feeds the same raw user-view read to the
external `getValueFromVariable`.) -/
theorem C2_css_reads_user_view (cfgs : Configs)
    (f : JValue → Option String → JValue → JValue) :
    getStyle cfgs (some "css") none "all" false f =
      .ok (jget cfgs.user "styles.css") ∧
    (∀ (P B : Option String), finalPath P B ≠ "styles.css" →
      getStyle cfgs P B "all" false f = .ok (jget cfgs.merged (finalPath P B))) := by
  constructor
  · rfl
  · intro P B h
    simp [getStyle, h]

/-- Witness for C2 at a concrete configuration and path. -/
theorem C2_css_reads_user_view_witness :
    getStyle ⟨.obj [("styles", .obj [("css", .str "merged-css"),
          ("color", .str "blue")])], .obj [],
        .obj [("styles", .obj [("css", .str "")])]⟩ (some "css") none "all"
        false (fun _ _ r => r) = .ok (.str "") ∧
    getStyle ⟨.obj [("styles", .obj [("css", .str "merged-css"),
          ("color", .str "blue")])], .obj [],
        .obj [("styles", .obj [("css", .str "")])]⟩ (some "color") none "all"
        false (fun _ _ r => r) = .ok (.str "blue") := by
  refine ⟨(C2_css_reads_user_view _ _).1, ?_⟩
  have h := (C2_css_reads_user_view
    (⟨.obj [("styles", .obj [("css", .str "merged-css"),
        ("color", .str "blue")])], .obj [],
      .obj [("styles", .obj [("css", .str "")])]⟩ : Configs)
    (fun _ _ r => r)).2 (some "color") none (by decide)
  simpa using h

/-! ### Claim C9: the css special case is scoped to the global path -/

/-- C9: the user-view-only rule applies only when the full resolved path
is the string `styles.css`: with a block name `B`, `getStyle` for path
`css` and source `all` reads `styles.blocks.B.css` from the merged view. -/
theorem C9_block_css_reads_merged (cfgs : Configs) (B : String)
    (f : JValue → Option String → JValue → JValue) :
    getStyle cfgs (some "css") (some B) "all" false f =
      .ok (jget cfgs.merged (finalPath (some "css") (some B))) := by
  have hne : finalPath (some "css") (some B) ≠ "styles.css" := by
    intro h
    have hlen := congrArg String.length h
    rw [finalPath, appendedPropertyPath] at hlen
    rw [String.length_append, String.length_append] at hlen
    have h1 : "styles.blocks.".length = 14 := rfl
    have h2 : ("." ++ "css").length = 4 := rfl
    have h3 : "styles.css".length = 10 := rfl
    rw [h1, h2, h3] at hlen
    omega
  simp [getStyle, hne]

/-! ### Claim C7: source validation (corrected) -/

/-- C7 counterexample: the claim says every source other than `all`,
`user`, `base` fails with the unsupported-source error, but `getSetting`
resolves `configs[sourceKey]` and therefore accepts `'merged'` as a
source, returning a value instead of failing. -/
theorem C7_counterexample :
    getSetting ⟨.obj [("settings", .obj [("x", .num 42)])], .obj [], .obj []⟩
      (some "x") none "merged" = .ok (.num 42) ∧
    getSetting ⟨.obj [("settings", .obj [("x", .num 42)])], .obj [], .obj []⟩
      (some "x") none "merged" ≠ .error "Unsupported source" :=
  ⟨rfl, fun h => Except.noConfusion h⟩

/-- C7 amended: `getStyle` fails with the unsupported-source error for
every source outside `all`/`user`/`base` and never for those three.
`getSetting` instead validates by the truthiness of `configs[sourceKey]`,
a plain bracket access that also finds inherited `Object.prototype`
members: it raises no error for `all` (reading the merged view), for
`merged`, `user`, `base` themselves when the selected view is truthy,
and for any source naming an `Object.prototype` member (`constructor`,
`toString`, `__proto__`, ...), where the single-path read then returns
`undefined`; every other source fails with the error. -/
theorem C7_amended :
    (∀ (cfgs : Configs) (sp B : Option String) (src : String),
      src ≠ "all" → src ≠ "user" → src ≠ "base" → src ≠ "merged" →
      objectPrototypeKeys.contains src = false →
      getSetting cfgs sp B src = .error "Unsupported source") ∧
    (∀ (cfgs : Configs) (sp B : Option String) (src : String),
      src = "all" ∨ src = "user" ∨ src = "base" →
      truthy (chosenView cfgs src) = true →
      getSetting cfgs sp B src ≠ .error "Unsupported source") ∧
    (∀ (cfgs : Configs) (B : Option String) (P src : String),
      objectPrototypeKeys.contains src = true →
      getSetting cfgs (some P) B src = .ok .undef) ∧
    (∀ (cfgs : Configs) (P B : Option String) (dec : Bool)
      (f : JValue → Option String → JValue → JValue) (src : String),
      src ≠ "all" → src ≠ "user" → src ≠ "base" →
      getStyle cfgs P B src dec f = .error "Unsupported source") ∧
    (∀ (cfgs : Configs) (P B : Option String) (dec : Bool)
      (f : JValue → Option String → JValue → JValue) (src : String),
      src = "all" ∨ src = "user" ∨ src = "base" →
      getStyle cfgs P B src dec f ≠ .error "Unsupported source") := by
  refine ⟨?_, ?_, ?_, ?_, ?_⟩
  · intro cfgs sp B src h1 h2 h3 h4 h5
    have hv : chosenView cfgs src = .undef := by
      rw [chosenView, sourceKeyOf, if_neg h1, viewByKey, if_neg h4, if_neg h3,
        if_neg h2, if_neg (by rw [h5]; exact fun hc => Bool.noConfusion hc)]
    simp [getSetting, hv, truthy]
  · intro cfgs sp B src hsrc hv
    rcases hsrc with h | h | h <;> subst h <;> cases sp <;>
      simp [getSetting, hv]
  · intro cfgs B P src hsrc
    have h1 : src ≠ "all" := by
      intro h; rw [h] at hsrc; exact absurd hsrc (by decide)
    have hm : src ≠ "merged" := by
      intro h; rw [h] at hsrc; exact absurd hsrc (by decide)
    have hb : src ≠ "base" := by
      intro h; rw [h] at hsrc; exact absurd hsrc (by decide)
    have hu : src ≠ "user" := by
      intro h; rw [h] at hsrc; exact absurd hsrc (by decide)
    have hv : chosenView cfgs src = .obj [] := by
      rw [chosenView, sourceKeyOf, if_neg h1, viewByKey, if_neg hm, if_neg hb,
        if_neg hu, if_pos hsrc]
    have hj1 : jget (JValue.obj [])
        ("settings" ++ appendedBlockPath B ++ ("." ++ P)) = .undef :=
      jgetSegs_emptyObj _ (splitDot_ne_nil _)
    have hj2 : jget (JValue.obj []) ("settings" ++ ("." ++ P)) = .undef :=
      jgetSegs_emptyObj _ (splitDot_ne_nil _)
    simp [getSetting, hv, truthy, appendedPropertyPath, hj1, hj2, jcoalesce,
      isNullish]
  · intro cfgs P B dec f src h1 h2 h3
    simp [getStyle, h1, h2, h3]
  · intro cfgs P B dec f src hsrc
    rcases hsrc with h | h | h <;> subst h <;> simp [getStyle]

/-- Witness for C7 amended at concrete sources and configurations,
including the inherited `constructor` key that does not fail. -/
theorem C7_amended_witness :
    getSetting ⟨.obj [], .obj [], .obj []⟩ none none "bogus" =
      .error "Unsupported source" ∧
    getSetting ⟨.obj [("settings", .obj [])], .obj [], .obj []⟩ (some "x") none
      "all" ≠ .error "Unsupported source" ∧
    getSetting ⟨.obj [("settings", .obj [("x", .num 42)])], .obj [], .obj []⟩
      (some "x") none "constructor" = .ok .undef ∧
    getStyle ⟨.obj [], .obj [], .obj []⟩ (some "x") none "bogus" false
      (fun _ _ r => r) = .error "Unsupported source" ∧
    getStyle ⟨.obj [], .obj [], .obj []⟩ (some "x") none "base" false
      (fun _ _ r => r) ≠ .error "Unsupported source" :=
  ⟨C7_amended.1 _ none none _ (by decide) (by decide) (by decide) (by decide)
     (by decide),
   C7_amended.2.1 _ (some "x") none _ (Or.inl rfl) rfl,
   C7_amended.2.2.1 _ none "x" _ (by decide),
   C7_amended.2.2.2.1 _ (some "x") none false _ _ (by decide) (by decide)
     (by decide),
   C7_amended.2.2.2.2 _ (some "x") none false _ _ (Or.inr (Or.inr rfl))⟩

/-! ### Claim C3: block-scoped read with global fallback (corrected) -/

/-- C3 counterexample: the claim says the block-scoped value is returned
whenever it is present, but `??` also falls back when the stored value is
`null`: here `settings.blocks.b.x` is present with value `null`, yet
`getSetting` returns the global `settings.x` value `42`. -/
theorem C3_counterexample :
    getSetting ⟨.obj [("settings",
        .obj [("blocks", .obj [("b", .obj [("x", .null)])]), ("x", .num 42)])],
        .obj [], .obj []⟩ (some "x") (some "b") "all" = .ok (.num 42) ∧
    jget (JValue.obj [("settings",
        .obj [("blocks", .obj [("b", .obj [("x", .null)])]), ("x", .num 42)])])
      "settings.blocks.b.x" = .null ∧
    JValue.null ≠ JValue.num 42 :=
  ⟨rfl, rfl, fun h => JValue.noConfusion h⟩

/-- Helper: the single-path read of `getSetting` is the nullish-coalesce
of the contextual and global path reads in the chosen view. -/
theorem getSetting_some_eq (cfgs : Configs) (src P : String) (B : Option String)
    (hv : truthy (chosenView cfgs src) = true) :
    getSetting cfgs (some P) B src = .ok (jcoalesce
      (jget (chosenView cfgs src)
        ("settings" ++ appendedBlockPath B ++ ("." ++ P)))
      (jget (chosenView cfgs src) ("settings" ++ ("." ++ P)))) := by
  simp [getSetting, hv, appendedPropertyPath]

/-- The JS `a ?? a` is `a`. -/
theorem jcoalesce_self (a : JValue) : jcoalesce a a = a := by
  unfold jcoalesce; exact ite_self a

/-- C3 amended: for a present and non-null block-scoped value the read
returns it; when the block-scoped slot is `null` or absent (`undefined`)
the read falls back to the global path (whose value may itself be null or
absent, `undefined` standing for "not defined anywhere"); with the block
name omitted it reads the global path directly. -/
theorem C3_amended (cfgs : Configs) (src P B : String)
    (hv : truthy (chosenView cfgs src) = true) :
    (isNullish (jget (chosenView cfgs src)
        ("settings" ++ (".blocks." ++ B) ++ ("." ++ P))) = false →
      getSetting cfgs (some P) (some B) src = .ok (jget (chosenView cfgs src)
        ("settings" ++ (".blocks." ++ B) ++ ("." ++ P)))) ∧
    (isNullish (jget (chosenView cfgs src)
        ("settings" ++ (".blocks." ++ B) ++ ("." ++ P))) = true →
      getSetting cfgs (some P) (some B) src =
        .ok (jget (chosenView cfgs src) ("settings" ++ ("." ++ P)))) ∧
    getSetting cfgs (some P) none src =
      .ok (jget (chosenView cfgs src) ("settings" ++ ("." ++ P))) := by
  refine ⟨?_, ?_, ?_⟩
  · intro h
    rw [getSetting_some_eq cfgs src P (some B) hv]
    simp only [appendedBlockPath]
    simp [jcoalesce, h]
  · intro h
    rw [getSetting_some_eq cfgs src P (some B) hv]
    simp only [appendedBlockPath]
    simp [jcoalesce, h]
  · rw [getSetting_some_eq cfgs src P none hv]
    show Except.ok (jcoalesce
      (jget (chosenView cfgs src) ("settings" ++ ("." ++ P)))
      (jget (chosenView cfgs src) ("settings" ++ ("." ++ P)))) = _
    rw [jcoalesce_self]

/-- Witness for C3 amended at a concrete configuration. -/
theorem C3_amended_witness :
    getSetting ⟨.obj [("settings", .obj [("x", .num 1)])], .obj [], .obj []⟩
      (some "x") (some "b") "all" = .ok (.num 1) ∧
    getSetting ⟨.obj [("settings", .obj [("x", .num 1)])], .obj [], .obj []⟩
      (some "x") none "all" = .ok (.num 1) := by
  have h := C3_amended
    (⟨.obj [("settings", .obj [("x", .num 1)])], .obj [], .obj []⟩ : Configs)
    "all" "x" "b" rfl
  exact ⟨h.2.1 rfl, h.2.2⟩

/-! ### Claim C8: reset capability -/

/-- Under fast-deep-equal, only the empty object equals the empty object. -/
theorem fde_emptyObj : ∀ v : JValue, fde v (.obj []) = true ↔ v = .obj [] := by
  intro v
  cases v with
  | obj fs =>
      cases fs with
      | nil => simp [fde, fdeFields]
      | cons a rest => simp [fde]
  | undef => simp [fde]
  | null => simp [fde]
  | bool b => simp [fde]
  | num n => simp [fde]
  | str s => simp [fde]
  | arr es ps => simp [fde]

/-- C8: for an object-valued user configuration with no duplicate keys,
`canReset` is false exactly when the configuration deep-equals the empty
configuration — concretely, when it is `{settings:{}, styles:{}}` in
either field order; the reset action replaces any current configuration
with `EMPTY_CONFIG` wholesale, after which `canReset` is false. -/
theorem C8_reset :
    (∀ fields : List (String × JValue), (fields.map Prod.fst).Nodup →
      (canReset (.obj fields) = false ↔
        fields = [("settings", .obj []), ("styles", .obj [])] ∨
        fields = [("styles", .obj []), ("settings", .obj [])])) ∧
    (∀ c, resetUpdater c = EMPTY_CONFIG) ∧
    canReset EMPTY_CONFIG = false := by
  have hmain : ∀ fields : List (String × JValue), (fields.map Prod.fst).Nodup →
      (canReset (.obj fields) = false ↔
        fields = [("settings", .obj []), ("styles", .obj [])] ∨
        fields = [("styles", .obj []), ("settings", .obj [])]) := by
    intro fields hnd
    have h1 : canReset (.obj fields) = false ↔
        fde (.obj fields) EMPTY_CONFIG = true := by
      simp [canReset, truthy]
    rw [h1]
    match fields, hnd with
    | [], _ => simp [EMPTY_CONFIG, fde]
    | [a], _ => simp [EMPTY_CONFIG, fde]
    | a :: b :: c :: rest, _ =>
        constructor
        · intro h
          exfalso
          simp only [EMPTY_CONFIG, fde, Bool.and_eq_true, beq_iff_eq] at h
          simp at h
        · intro h
          rcases h with h | h <;> simp at h
    | [(ka, va), (kb, vb)], hnd =>
        have hkk : ka ≠ kb := by simpa using hnd
        have hlook : ∀ (k : String), ¬ ("settings" = k) → ¬ ("styles" = k) →
            lookupField [("settings", JValue.obj []), ("styles", JValue.obj [])] k
              = none := by
          intro k h1 h2
          simp [lookupField, h1, h2]
        constructor
        · intro h
          simp only [EMPTY_CONFIG, fde, Bool.and_eq_true, beq_iff_eq] at h
          obtain ⟨-, h2⟩ := h
          simp only [fdeFields, Bool.and_eq_true] at h2
          obtain ⟨h2a, h2b, -⟩ := h2
          by_cases hka : ("settings" : String) = ka
          · subst hka
            have hva : va = .obj [] := (fde_emptyObj va).mp h2a
            by_cases hkb : ("settings" : String) = kb
            · exact absurd hkb hkk
            · by_cases hkb2 : ("styles" : String) = kb
              · subst hkb2
                have hvb : vb = .obj [] := (fde_emptyObj vb).mp h2b
                subst hva; subst hvb
                exact Or.inl rfl
              · rw [hlook kb hkb hkb2] at h2b
                simp at h2b
          · by_cases hka2 : ("styles" : String) = ka
            · subst hka2
              have hva : va = .obj [] := (fde_emptyObj va).mp h2a
              by_cases hkb : ("settings" : String) = kb
              · subst hkb
                have hvb : vb = .obj [] := (fde_emptyObj vb).mp h2b
                subst hva; subst hvb
                exact Or.inr rfl
              · by_cases hkb2 : ("styles" : String) = kb
                · exact absurd hkb2 hkk
                · rw [hlook kb hkb hkb2] at h2b
                  simp at h2b
            · rw [hlook ka hka hka2] at h2a
              simp at h2a
        · intro h
          rcases h with h | h <;>
            · simp only [List.cons.injEq, Prod.mk.injEq, and_true] at h
              obtain ⟨⟨h1, h2⟩, h3, h4⟩ := h
              subst h1; subst h2; subst h3; subst h4
              simp [EMPTY_CONFIG, fde, fdeFields, lookupField, fde_emptyObj]
  refine ⟨hmain, fun _ => rfl, ?_⟩
  exact (hmain [("settings", .obj []), ("styles", .obj [])] (by decide)).mpr
    (Or.inl rfl)

/-- Witness for C8 at a concrete non-empty and at the empty
configuration. -/
theorem C8_reset_witness :
    canReset (.obj [("settings", .obj [("x", .num 1)]), ("styles", .obj [])])
      = true ∧
    canReset (.obj [("settings", .obj []), ("styles", .obj [])]) = false := by
  constructor
  · have h := (C8_reset.1 [("settings", .obj [("x", .num 1)]), ("styles", .obj [])]
      (by decide))
    by_cases hc : canReset
        (.obj [("settings", .obj [("x", .num 1)]), ("styles", .obj [])]) = false
    · rcases h.mp hc with h2 | h2 <;> simp at h2
    · simpa using hc
  · exact (C8_reset.1 [("settings", .obj []), ("styles", .obj [])]
      (by decide)).mpr (Or.inl rfl)

/-! ### Claim C4: bulk settings read -/

theorem goodPathList_nonindex : ∀ (L : List String), goodPathList L = true →
    ∀ u ∈ L, ∀ k ∈ splitDot u, isIndexKey k = false
  | [], _, u, hu, _, _ => absurd hu (List.not_mem_nil u)
  | t :: rest, hg, u, hu, k, hk => by
      simp only [goodPathList, Bool.and_eq_true] at hg
      obtain ⟨⟨⟨-, h2⟩, -⟩, h4⟩ := hg
      rcases List.mem_cons.mp hu with rfl | hu2
      · simpa using List.all_eq_true.mp h2 k hk
      · exact goodPathList_nonindex rest h4 u hu2 k hk

/-- Folding truthy-conditional `set`s over paths unrelated to `q` does not
change the value read at `q`. -/
theorem foldSet_preserve (f : String → JValue) :
    ∀ (L : List String) (acc : JValue) (q : List String),
    (∀ t ∈ L, (∀ k ∈ splitDot t, isIndexKey k = false) ∧
      segsLe (splitDot t) q = false ∧ segsLe q (splitDot t) = false) →
    jgetSegs (L.foldl
      (fun a u => if truthy (f u) then jset a u (f u) else a) acc) q =
      jgetSegs acc q
  | [], _, _, _ => rfl
  | t :: rest, acc, q, h => by
      have ht := h t (List.mem_cons_self _ _)
      rw [List.foldl_cons,
        foldSet_preserve f rest _ q (fun u hu => h u (List.mem_cons_of_mem _ hu))]
      by_cases htr : truthy (f t) = true
      · rw [if_pos htr]
        exact jget_jset_unrel (splitDot t) q ht.1 ht.2.1 ht.2.2 acc (f t)
      · rw [if_neg htr]

/-- Reading a listed path out of the fold gives its resolved value when
truthy and the base value otherwise. -/
theorem foldSet_lookup (f : String → JValue) :
    ∀ (L : List String) (acc : JValue) (s : String), s ∈ L →
    goodPathList L = true →
    jgetSegs (L.foldl
      (fun a u => if truthy (f u) then jset a u (f u) else a) acc) (splitDot s) =
      if truthy (f s) then f s else jgetSegs acc (splitDot s)
  | [], _, s, hs, _ => absurd hs (List.not_mem_nil s)
  | t :: rest, acc, s, hs, hg => by
      simp only [goodPathList, Bool.and_eq_true] at hg
      obtain ⟨⟨⟨-, hnonidx⟩, hunrel⟩, hgrest⟩ := hg
      rcases List.mem_cons.mp hs with rfl | hs2
      · rw [List.foldl_cons, foldSet_preserve f rest _ (splitDot s) ?hpres]
        case hpres =>
          intro u hu
          have hu2 := List.all_eq_true.mp hunrel u hu
          simp only [Bool.and_eq_true, Bool.not_eq_true'] at hu2
          exact ⟨goodPathList_nonindex rest hgrest u hu, hu2.2, hu2.1⟩
        by_cases htr : truthy (f s) = true
        · rw [if_pos htr, if_pos htr]
          exact jgetSegs_jsetSegs_self _ _ _
        · rw [if_neg htr, if_neg htr]
      · rw [List.foldl_cons, foldSet_lookup f rest _ s hs2 hgrest]
        by_cases htr : truthy (f s) = true
        · rw [if_pos htr, if_pos htr]
        · rw [if_neg htr, if_neg htr]
          by_cases htt : truthy (f t) = true
          · rw [if_pos htt]
            have hu2 := List.all_eq_true.mp hunrel s hs2
            simp only [Bool.and_eq_true, Bool.not_eq_true'] at hu2
            have hidx : ∀ k ∈ splitDot t, isIndexKey k = false := by
              intro k hk
              simpa using List.all_eq_true.mp hnonidx k hk
            exact jget_jset_unrel (splitDot t) (splitDot s) hidx hu2.1 hu2.2 acc (f t)
          · rw [if_neg htt]

/-- Any path whose read out of the fold differs from its base read is
prefix-related to some listed path with a truthy resolved value. -/
theorem foldSet_outside (f : String → JValue) :
    ∀ (L : List String) (acc : JValue) (q : List String),
    (∀ t ∈ L, ∀ k ∈ splitDot t, isIndexKey k = false) →
    jgetSegs (L.foldl
      (fun a u => if truthy (f u) then jset a u (f u) else a) acc) q ≠
      jgetSegs acc q →
    ∃ s, s ∈ L ∧ truthy (f s) = true ∧
      (segsLe (splitDot s) q = true ∨ segsLe q (splitDot s) = true)
  | [], _, _, _, hne => absurd rfl hne
  | t :: rest, acc, q, hidx, hne => by
      rw [List.foldl_cons] at hne
      by_cases h1 : jgetSegs (rest.foldl
          (fun a u => if truthy (f u) then jset a u (f u) else a)
          (if truthy (f t) then jset acc t (f t) else acc)) q =
          jgetSegs (if truthy (f t) then jset acc t (f t) else acc) q
      · rw [h1] at hne
        by_cases htt : truthy (f t) = true
        · rw [if_pos htt] at hne
          refine ⟨t, List.mem_cons_self _ _, htt, ?_⟩
          by_cases hA : segsLe (splitDot t) q = true
          · exact Or.inl hA
          · by_cases hB : segsLe q (splitDot t) = true
            · exact Or.inr hB
            · exact absurd (jget_jset_unrel (splitDot t) q
                (hidx t (List.mem_cons_self _ _)) (by simpa using hA)
                (by simpa using hB) acc (f t)) hne
        · rw [if_neg htt] at hne
          exact absurd rfl hne
      · obtain ⟨s, hsmem, hst, hrel⟩ := foldSet_outside f rest _ q
          (fun u hu => hidx u (List.mem_cons_of_mem _ hu)) h1
        exact ⟨s, List.mem_cons_of_mem _ hsmem, hst, hrel⟩

/-- C4: with the path omitted, `getSetting` returns the bulk mapping; that
mapping holds, at each allow-list path, exactly the
block-scoped-with-global-fallback resolution when truthy (each value
stored under the path's own nested structure) and nothing (`undefined`)
otherwise; and every path readable out of the mapping is prefix-related
to a truthy allow-list path — paths outside the allow-list never appear. -/
theorem C4_bulk_settings (cfgs : Configs) (B : Option String) (src : String)
    (hv : truthy (chosenView cfgs src) = true) :
    getSetting cfgs none B src =
      .ok (bulkSettings (chosenView cfgs src) (appendedBlockPath B)) ∧
    (∀ (configToUse : JValue) (abp : String), ∀ s ∈ VALID_SETTINGS,
      jget (bulkSettings configToUse abp) s =
        if truthy (resolveSetting configToUse abp s) then
          resolveSetting configToUse abp s
        else .undef) ∧
    (∀ (configToUse : JValue) (abp : String) (q : String),
      jget (bulkSettings configToUse abp) q ≠ .undef →
      ∃ s, s ∈ VALID_SETTINGS ∧
        truthy (resolveSetting configToUse abp s) = true ∧
        (segsLe (splitDot s) (splitDot q) = true ∨
         segsLe (splitDot q) (splitDot s) = true)) := by
  refine ⟨by simp [getSetting, hv], ?_, ?_⟩
  · intro cu abp s hs
    have h := foldSet_lookup (resolveSetting cu abp) VALID_SETTINGS (.obj [])
      s hs (by decide)
    rw [jgetSegs_emptyObj _ (splitDot_ne_nil s)] at h
    exact h
  · intro cu abp q hq
    have hne : jgetSegs (VALID_SETTINGS.foldl
        (fun a u => if truthy (resolveSetting cu abp u) then
          jset a u (resolveSetting cu abp u) else a) (.obj []))
        (splitDot q) ≠ jgetSegs (.obj []) (splitDot q) := by
      rw [jgetSegs_emptyObj _ (splitDot_ne_nil q)]
      exact hq
    exact foldSet_outside (resolveSetting cu abp) VALID_SETTINGS (.obj [])
      (splitDot q) (goodPathList_nonindex VALID_SETTINGS (by decide)) hne

/-- Witness for C4 at a concrete configuration: `custom` resolves truthy
and appears, `color.palette` resolves falsy and does not. -/
theorem C4_bulk_settings_witness :
    getSetting ⟨.obj [("settings", .obj [("custom", .num 5)])], .obj [],
        .obj []⟩ none none "all" =
      .ok (bulkSettings (.obj [("settings", .obj [("custom", .num 5)])]) "") ∧
    jget (bulkSettings (.obj [("settings", .obj [("custom", .num 5)])]) "")
      "custom" = .num 5 ∧
    jget (bulkSettings (.obj [("settings", .obj [("custom", .num 5)])]) "")
      "color.palette" = .undef := by
  have hthm := C4_bulk_settings
    (⟨.obj [("settings", .obj [("custom", .num 5)])], .obj [], .obj []⟩ : Configs)
    none "all" rfl
  refine ⟨hthm.1, ?_, ?_⟩
  · have h := hthm.2.1 (.obj [("settings", .obj [("custom", .num 5)])]) ""
      "custom" (by decide)
    rw [h]; rfl
  · have h := hthm.2.1 (.obj [("settings", .obj [("custom", .num 5)])]) ""
      "color.palette" (by decide)
    rw [h]; rfl

/-! ### Claim C1: spacing capability filtering (corrected) -/

theorem jgetKey_spreadSet_self (v : JValue) (k : String) (x : JValue) :
    jgetKey (spreadSet v k x) k = x := by
  simp [spreadSet, jgetKey, lookupField_upsert_self]

theorem isObjB_sectionSet (acc : JValue) (sec : String)
    (kvs : List (String × JValue)) : isObjB (sectionSet acc sec kvs) = true := rfl

theorem jgetKey_sectionSet_self_section (acc : JValue) (sec : String)
    (kvs : List (String × JValue)) :
    isObjB (jgetKey (sectionSet acc sec kvs) sec) = true := by
  simp [sectionSet, jgetKey_spreadSet_self, isObjB]

theorem jgetKey_obj (fs : List (String × JValue)) (k : String) :
    jgetKey (.obj fs) k = (lookupField fs k).getD .undef := rfl

theorem sectionSet_get_self (acc : JValue) (sec key : String) (X : JValue) :
    jgetKey (jgetKey (sectionSet acc sec [(key, X)]) sec) key = X := by
  have h1 : jgetKey (sectionSet acc sec [(key, X)]) sec =
      .obj (upsertField (objFieldsOf (jgetKey acc sec)) key X) := by
    rw [show sectionSet acc sec [(key, X)] = spreadSet acc sec
      (.obj (upsertField (objFieldsOf (jgetKey acc sec)) key X)) from rfl]
    exact jgetKey_spreadSet_self _ _ _
  rw [h1, jgetKey_obj, lookupField_upsert_self]
  rfl

theorem sectionSet_get_other (acc : JValue) (sec key key2 : String) (X : JValue)
    (hne : key ≠ key2) (hsp : isObjB (jgetKey acc sec) = true) :
    jgetKey (jgetKey (sectionSet acc sec [(key, X)]) sec) key2 =
      jgetKey (jgetKey acc sec) key2 := by
  have h1 : jgetKey (sectionSet acc sec [(key, X)]) sec =
      .obj (upsertField (objFieldsOf (jgetKey acc sec)) key X) := by
    rw [show sectionSet acc sec [(key, X)] = spreadSet acc sec
      (.obj (upsertField (objFieldsOf (jgetKey acc sec)) key X)) from rfl]
    exact jgetKey_spreadSet_self _ _ _
  rw [h1, jgetKey_obj, lookupField_upsert_ne _ _ _ _ hne]
  cases hjv : jgetKey acc sec with
  | obj fs => rw [jgetKey_obj]; rfl
  | undef => rw [hjv] at hsp; simp [isObjB] at hsp
  | null => rw [hjv] at hsp; simp [isObjB] at hsp
  | bool b => rw [hjv] at hsp; simp [isObjB] at hsp
  | num n => rw [hjv] at hsp; simp [isObjB] at hsp
  | str s2 => rw [hjv] at hsp; simp [isObjB] at hsp
  | arr es ps => rw [hjv] at hsp; simp [isObjB] at hsp

theorem sectionSet_other_section (acc : JValue) (sec sec2 : String)
    (kvs : List (String × JValue)) (hne : sec ≠ sec2)
    (hobj : isObjB acc = true) :
    jgetKey (sectionSet acc sec kvs) sec2 = jgetKey acc sec2 := by
  cases acc with
  | obj fs =>
      rw [show sectionSet (.obj fs) sec kvs = .obj (upsertField fs sec
        (.obj (kvs.foldl (fun a kv => upsertField a kv.1 kv.2)
          (objFieldsOf (jgetKey (.obj fs) sec))))) from rfl]
      rw [jgetKey_obj, jgetKey_obj, lookupField_upsert_ne _ _ _ _ hne]
      rfl
  | undef => simp [isObjB] at hobj
  | null => simp [isObjB] at hobj
  | bool b => simp [isObjB] at hobj
  | num n => simp [isObjB] at hobj
  | str s2 => simp [isObjB] at hobj
  | arr es ps => simp [isObjB] at hobj

theorem spacingStep_get_self_disable (ss : List String) (sup acc : JValue)
    (key : String) (h1 : ss.contains key = false)
    (h2 : sidesLengthTruthy (sidesFor sup key) = false) :
    jgetKey (jgetKey (spacingStep ss sup acc key) "spacing") key = .bool false ∧
    isObjB (jgetKey (spacingStep ss sup acc key) "spacing") = true ∧
    isObjB (spacingStep ss sup acc key) = true := by
  have hb1 : (! ss.contains key) = true := by rw [h1]; rfl
  have hstep : spacingStep ss sup acc key =
      sectionSet acc "spacing" [(key, .bool false)] := by
    unfold spacingStep
    dsimp only
    rw [hb1, if_pos rfl, h2, if_neg Bool.false_ne_true]
  rw [hstep]
  exact ⟨sectionSet_get_self _ _ _ _,
    jgetKey_sectionSet_self_section _ _ _, isObjB_sectionSet _ _ _⟩

theorem spacingStep_get_self_sides (ss : List String) (sup acc : JValue)
    (key : String) (h2 : sidesLengthTruthy (sidesFor sup key) = true) :
    jgetKey (jgetKey (jgetKey (spacingStep ss sup acc key) "spacing") key)
      "sides" = sidesFor sup key ∧
    isObjB (jgetKey (spacingStep ss sup acc key) "spacing") = true ∧
    isObjB (spacingStep ss sup acc key) = true := by
  cases hc : ss.contains key with
  | false =>
      have hb1 : (! ss.contains key) = true := by rw [hc]; rfl
      have hstep : spacingStep ss sup acc key =
          sectionSet (sectionSet acc "spacing" [(key, .bool false)]) "spacing"
            [(key, spreadSet (jgetKey (jgetKey (sectionSet acc "spacing"
              [(key, .bool false)]) "spacing") key) "sides"
              (sidesFor sup key))] := by
        unfold spacingStep
        dsimp only
        rw [hb1, if_pos rfl, h2, if_pos rfl]
      rw [hstep]
      refine ⟨?_, jgetKey_sectionSet_self_section _ _ _, isObjB_sectionSet _ _ _⟩
      rw [sectionSet_get_self]
      exact jgetKey_spreadSet_self _ _ _
  | true =>
      have hb1 : (! ss.contains key) = false := by rw [hc]; rfl
      have hstep : spacingStep ss sup acc key =
          sectionSet acc "spacing"
            [(key, spreadSet (jgetKey (jgetKey acc "spacing") key) "sides"
              (sidesFor sup key))] := by
        unfold spacingStep
        dsimp only
        rw [hb1, if_neg Bool.false_ne_true, h2, if_pos rfl]
      rw [hstep]
      refine ⟨?_, jgetKey_sectionSet_self_section _ _ _, isObjB_sectionSet _ _ _⟩
      rw [sectionSet_get_self]
      exact jgetKey_spreadSet_self _ _ _

theorem spacingStep_preserve (ss : List String) (sup acc : JValue)
    (key2 key : String) (hne : key2 ≠ key)
    (hsp : isObjB (jgetKey acc "spacing") = true)
    (hobj : isObjB acc = true) :
    jgetKey (jgetKey (spacingStep ss sup acc key2) "spacing") key =
      jgetKey (jgetKey acc "spacing") key ∧
    isObjB (jgetKey (spacingStep ss sup acc key2) "spacing") = true ∧
    isObjB (spacingStep ss sup acc key2) = true := by
  cases hc : ss.contains key2 with
  | true =>
      have hb1 : (! ss.contains key2) = false := by rw [hc]; rfl
      cases hsd : sidesLengthTruthy (sidesFor sup key2) with
      | true =>
          have hstep : spacingStep ss sup acc key2 =
              sectionSet acc "spacing"
                [(key2, spreadSet (jgetKey (jgetKey acc "spacing") key2) "sides"
                  (sidesFor sup key2))] := by
            unfold spacingStep
            dsimp only
            rw [hb1, if_neg Bool.false_ne_true, hsd, if_pos rfl]
          rw [hstep]
          exact ⟨sectionSet_get_other _ _ _ _ _ hne hsp,
            jgetKey_sectionSet_self_section _ _ _, isObjB_sectionSet _ _ _⟩
      | false =>
          have hstep : spacingStep ss sup acc key2 = acc := by
            unfold spacingStep
            dsimp only
            rw [hb1, if_neg Bool.false_ne_true, hsd, if_neg Bool.false_ne_true]
          rw [hstep]
          exact ⟨rfl, hsp, hobj⟩
  | false =>
      have hb1 : (! ss.contains key2) = true := by rw [hc]; rfl
      cases hsd : sidesLengthTruthy (sidesFor sup key2) with
      | true =>
          have hstep : spacingStep ss sup acc key2 =
              sectionSet (sectionSet acc "spacing" [(key2, .bool false)])
                "spacing" [(key2, spreadSet (jgetKey (jgetKey (sectionSet acc
                  "spacing" [(key2, .bool false)]) "spacing") key2) "sides"
                  (sidesFor sup key2))] := by
            unfold spacingStep
            dsimp only
            rw [hb1, if_pos rfl, hsd, if_pos rfl]
          rw [hstep]
          refine ⟨?_, jgetKey_sectionSet_self_section _ _ _,
            isObjB_sectionSet _ _ _⟩
          rw [sectionSet_get_other _ _ _ _ _ hne
            (jgetKey_sectionSet_self_section _ _ _)]
          exact sectionSet_get_other _ _ _ _ _ hne hsp
      | false =>
          have hstep : spacingStep ss sup acc key2 =
              sectionSet acc "spacing" [(key2, .bool false)] := by
            unfold spacingStep
            dsimp only
            rw [hb1, if_pos rfl, hsd, if_neg Bool.false_ne_true]
          rw [hstep]
          exact ⟨sectionSet_get_other _ _ _ _ _ hne hsp,
            jgetKey_sectionSet_self_section _ _ _, isObjB_sectionSet _ _ _⟩

theorem typographyStep_obj (ss : List String) (acc : JValue) (key : String)
    (h : isObjB acc = true) : isObjB (typographyStep ss acc key) = true := by
  unfold typographyStep
  cases hc : ss.contains key with
  | true =>
      rw [if_neg (by decide)]
      exact h
  | false =>
      rw [if_pos (by decide)]
      exact isObjB_sectionSet _ _ _

theorem layoutStep_obj (ss : List String) (acc : JValue) (key : String)
    (h : isObjB acc = true) : isObjB (layoutStep ss acc key) = true := by
  unfold layoutStep
  cases hc : ss.contains key with
  | true =>
      rw [if_neg (by decide)]
      exact h
  | false =>
      rw [if_pos (by decide)]
      exact isObjB_sectionSet _ _ _

theorem foldl_typographyStep_obj (ss : List String) :
    ∀ (L : List String) (acc : JValue), isObjB acc = true →
    isObjB (L.foldl (typographyStep ss) acc) = true
  | [], _, h => h
  | k :: rest, acc, h =>
      foldl_typographyStep_obj ss rest _ (typographyStep_obj ss acc k h)

theorem foldl_layoutStep_obj (ss : List String) :
    ∀ (L : List String) (acc : JValue), isObjB acc = true →
    isObjB (L.foldl (layoutStep ss) acc) = true
  | [], _, h => h
  | k :: rest, acc, h =>
      foldl_layoutStep_obj ss rest _ (layoutStep_obj ss acc k h)

theorem filterTypographyStage_obj (ss : List String) (u : JValue)
    (h : isObjB u = true) : isObjB (filterTypographyStage ss u) = true := by
  unfold filterTypographyStage
  dsimp only
  apply foldl_typographyStep_obj
  cases h2 : ss.contains "fontFamily" with
  | true =>
      rw [if_neg (by decide)]
      cases h1 : ss.contains "fontSize" with
      | true =>
          rw [if_neg (by decide)]
          exact h
      | false =>
          rw [if_pos (by decide)]
          exact isObjB_sectionSet _ _ _
  | false =>
      rw [if_pos (by decide)]
      exact isObjB_sectionSet _ _ _

theorem filterLayoutStage_obj (ss : List String) (u : JValue)
    (h : isObjB u = true) : isObjB (filterLayoutStage ss u) = true :=
  foldl_layoutStep_obj ss _ u h

theorem filterDimensionsStage_spacing (ss : List String) (u : JValue)
    (hobj : isObjB u = true) :
    jgetKey (filterDimensionsStage ss u) "spacing" = jgetKey u "spacing" := by
  unfold filterDimensionsStage
  cases hc : ss.contains "minHeight" with
  | true =>
      rw [if_neg (by decide)]
  | false =>
      rw [if_pos (by decide)]
      exact sectionSet_other_section _ _ _ _ (by decide) hobj

/-- C1 counterexample: the claim says an unsupported spacing feature is
disabled (`false`) in the result and that a declared side-restriction is
copied only when the feature is supported; but the code merges a declared
`sides` list in unconditionally, so an unsupported `padding` with
`supports.spacing.padding = ["top"]` ends up as `{sides: ["top"]}`
rather than `false`. -/
theorem C1_counterexample :
    jget (filterSettingsForBlock (.obj []) []
        (.obj [("spacing", .obj [("padding", .arr [.str "top"] [])])]))
      "spacing.padding" = .obj [("sides", .arr [.str "top"] [])] ∧
    jget (filterSettingsForBlock (.obj []) []
        (.obj [("spacing", .obj [("padding", .arr [.str "top"] [])])]))
      "spacing.padding" ≠ .bool false :=
  ⟨rfl, fun h => JValue.noConfusion h⟩

/-- C1 amended: for each spacing feature among `padding`, `margin`,
`blockGap`: if the feature is unsupported and no truthy side-restriction
is declared, the result disables it (`false`); and whenever a truthy
side-restriction is declared (`sides?.length` truthy), the restriction is
merged into the result entry for that feature — regardless of whether the
feature is supported, so an unsupported feature with declared sides ends
as `{...,sides}` instead of `false`. -/
theorem C1_amended (parent sup : JValue) (ss : List String) (key : String)
    (hk : key = "padding" ∨ key = "margin" ∨ key = "blockGap") :
    (ss.contains key = false → sidesLengthTruthy (sidesFor sup key) = false →
      jget (filterSettingsForBlock parent ss sup) ("spacing." ++ key) =
        .bool false) ∧
    (sidesLengthTruthy (sidesFor sup key) = true →
      jgetKey (jget (filterSettingsForBlock parent ss sup) ("spacing." ++ key))
        "sides" = sidesFor sup key) := by
  have hT := filterTypographyStage_obj ss (.obj (objFieldsOf parent)) rfl
  have hL := filterLayoutStage_obj ss _ hT
  rcases hk with rfl | rfl | rfl
  · constructor
    · intro h1 h2
      have A := spacingStep_get_self_disable ss sup
        (filterLayoutStage ss (filterTypographyStage ss
          (.obj (objFieldsOf parent)))) "padding" h1 h2
      have B := spacingStep_preserve ss sup _ "margin" "padding" (by decide)
        A.2.1 A.2.2
      have C := spacingStep_preserve ss sup _ "blockGap" "padding" (by decide)
        B.2.1 B.2.2
      show jgetKey (jgetKey (filterDimensionsStage ss (spacingStep ss sup
        (spacingStep ss sup (spacingStep ss sup (filterLayoutStage ss
          (filterTypographyStage ss (.obj (objFieldsOf parent)))) "padding")
          "margin") "blockGap")) "spacing") "padding" = .bool false
      rw [filterDimensionsStage_spacing ss _ C.2.2, C.1, B.1]
      exact A.1
    · intro h2
      have A := spacingStep_get_self_sides ss sup
        (filterLayoutStage ss (filterTypographyStage ss
          (.obj (objFieldsOf parent)))) "padding" h2
      have B := spacingStep_preserve ss sup _ "margin" "padding" (by decide)
        A.2.1 A.2.2
      have C := spacingStep_preserve ss sup _ "blockGap" "padding" (by decide)
        B.2.1 B.2.2
      show jgetKey (jgetKey (jgetKey (filterDimensionsStage ss (spacingStep ss
        sup (spacingStep ss sup (spacingStep ss sup (filterLayoutStage ss
          (filterTypographyStage ss (.obj (objFieldsOf parent)))) "padding")
          "margin") "blockGap")) "spacing") "padding") "sides" =
        sidesFor sup "padding"
      rw [filterDimensionsStage_spacing ss _ C.2.2, C.1, B.1]
      exact A.1
  · constructor
    · intro h1 h2
      have A := spacingStep_get_self_disable ss sup
        (spacingStep ss sup (filterLayoutStage ss (filterTypographyStage ss
          (.obj (objFieldsOf parent)))) "padding") "margin" h1 h2
      have C := spacingStep_preserve ss sup _ "blockGap" "margin" (by decide)
        A.2.1 A.2.2
      show jgetKey (jgetKey (filterDimensionsStage ss (spacingStep ss sup
        (spacingStep ss sup (spacingStep ss sup (filterLayoutStage ss
          (filterTypographyStage ss (.obj (objFieldsOf parent)))) "padding")
          "margin") "blockGap")) "spacing") "margin" = .bool false
      rw [filterDimensionsStage_spacing ss _ C.2.2, C.1]
      exact A.1
    · intro h2
      have A := spacingStep_get_self_sides ss sup
        (spacingStep ss sup (filterLayoutStage ss (filterTypographyStage ss
          (.obj (objFieldsOf parent)))) "padding") "margin" h2
      have C := spacingStep_preserve ss sup _ "blockGap" "margin" (by decide)
        A.2.1 A.2.2
      show jgetKey (jgetKey (jgetKey (filterDimensionsStage ss (spacingStep ss
        sup (spacingStep ss sup (spacingStep ss sup (filterLayoutStage ss
          (filterTypographyStage ss (.obj (objFieldsOf parent)))) "padding")
          "margin") "blockGap")) "spacing") "margin") "sides" =
        sidesFor sup "margin"
      rw [filterDimensionsStage_spacing ss _ C.2.2, C.1]
      exact A.1
  · constructor
    · intro h1 h2
      have A := spacingStep_get_self_disable ss sup
        (spacingStep ss sup (spacingStep ss sup (filterLayoutStage ss
          (filterTypographyStage ss (.obj (objFieldsOf parent)))) "padding")
          "margin") "blockGap" h1 h2
      show jgetKey (jgetKey (filterDimensionsStage ss (spacingStep ss sup
        (spacingStep ss sup (spacingStep ss sup (filterLayoutStage ss
          (filterTypographyStage ss (.obj (objFieldsOf parent)))) "padding")
          "margin") "blockGap")) "spacing") "blockGap" = .bool false
      rw [filterDimensionsStage_spacing ss _ A.2.2]
      exact A.1
    · intro h2
      have A := spacingStep_get_self_sides ss sup
        (spacingStep ss sup (spacingStep ss sup (filterLayoutStage ss
          (filterTypographyStage ss (.obj (objFieldsOf parent)))) "padding")
          "margin") "blockGap" h2
      show jgetKey (jgetKey (jgetKey (filterDimensionsStage ss (spacingStep ss
        sup (spacingStep ss sup (spacingStep ss sup (filterLayoutStage ss
          (filterTypographyStage ss (.obj (objFieldsOf parent)))) "padding")
          "margin") "blockGap")) "spacing") "blockGap") "sides" =
        sidesFor sup "blockGap"
      rw [filterDimensionsStage_spacing ss _ A.2.2]
      exact A.1

/-- Witness for C1 amended: an unsupported `padding` with no declared
sides comes out disabled; a declared `["top"]` restriction is merged in. -/
theorem C1_amended_witness :
    jget (filterSettingsForBlock (.obj []) [] (.obj [])) "spacing.padding" =
      .bool false ∧
    jgetKey (jget (filterSettingsForBlock (.obj []) []
        (.obj [("spacing", .obj [("padding", .arr [.str "top"] [])])]))
      "spacing.padding") "sides" = .arr [.str "top"] [] :=
  ⟨(C1_amended (.obj []) (.obj []) [] "padding" (Or.inl rfl)).1 rfl rfl,
   (C1_amended (.obj [])
      (.obj [("spacing", .obj [("padding", .arr [.str "top"] [])])]) []
      "padding" (Or.inl rfl)).2 rfl⟩

/-! ### Claim C6: heap lemmas -/

theorem lookupGo_updateGo : ∀ (cells : List (Nat × HNode)) (r : Nat) (n : HNode)
    (r2 : Nat), lookupCell.go (updateCell.go cells r n) r2 =
      if r2 = r then some n else lookupCell.go cells r2
  | [], r, n, r2 => by
      simp only [updateCell.go, lookupCell.go]
      by_cases h : r2 = r
      · subst h; simp
      · rw [if_neg (fun hh => h hh.symm), if_neg h]
  | c :: rest, r, n, r2 => by
      by_cases h1 : c.1 = r
      · simp only [updateCell.go, if_pos h1, lookupCell.go]
        by_cases h2 : r2 = r
        · subst h2; simp
        · rw [if_neg (fun hh => h2 hh.symm), if_neg h2,
            if_neg (show ¬(c.1 = r2) from fun hh => h2 (h1.symm.trans hh).symm)]
      · simp only [updateCell.go, if_neg h1, lookupCell.go]
        by_cases h2 : c.1 = r2
        · rw [if_pos h2, if_pos h2,
            if_neg (show ¬(r2 = r) from fun hh => h1 (h2.trans hh))]
        · rw [if_neg h2, if_neg h2, lookupGo_updateGo rest r n r2]

theorem lookupCell_updateCell (h : Heap) (r : Nat) (n : HNode) (r2 : Nat) :
    lookupCell (updateCell h r n) r2 =
      if r2 = r then some n else lookupCell h r2 :=
  lookupGo_updateGo h.cells r n r2

theorem updateCell_next (h : Heap) (r : Nat) (n : HNode) :
    (updateCell h r n).next = h.next := rfl

theorem lookupGo_append_ne : ∀ (cells : List (Nat × HNode)) (a : Nat) (n : HNode)
    (r2 : Nat), a ≠ r2 →
    lookupCell.go (cells ++ [(a, n)]) r2 = lookupCell.go cells r2
  | [], a, n, r2, h => by simp [lookupCell.go, h]
  | c :: rest, a, n, r2, h => by
      by_cases h1 : c.1 = r2
      · simp [lookupCell.go, h1]
      · simp [lookupCell.go, h1, lookupGo_append_ne rest a n r2 h]

theorem lookupGo_append_self : ∀ (cells : List (Nat × HNode)) (a : Nat)
    (n : HNode), lookupCell.go cells a = none →
    lookupCell.go (cells ++ [(a, n)]) a = some n
  | [], a, n, _ => by simp [lookupCell.go]
  | c :: rest, a, n, h => by
      by_cases h1 : c.1 = a
      · simp [lookupCell.go, h1] at h
      · simp [lookupCell.go, h1] at h ⊢
        exact lookupGo_append_self rest a n h

theorem lookupCell_alloc_ne (h : Heap) (n : HNode) (r2 : Nat)
    (hne : r2 ≠ h.next) : lookupCell (allocCell h n).1 r2 = lookupCell h r2 :=
  lookupGo_append_ne h.cells h.next n r2 (fun hh => hne hh.symm)

theorem lookupCell_alloc_self (h : Heap) (n : HNode)
    (hnone : lookupCell h h.next = none) :
    lookupCell (allocCell h n).1 h.next = some n :=
  lookupGo_append_self h.cells h.next n hnone

theorem lookupGo_mem : ∀ (cells : List (Nat × HNode)) (r : Nat) (n : HNode),
    lookupCell.go cells r = some n → (r, n) ∈ cells
  | [], r, n, h => by simp [lookupCell.go] at h
  | c :: rest, r, n, h => by
      by_cases h1 : c.1 = r
      · simp only [lookupCell.go, if_pos h1, Option.some.injEq] at h
        subst h1
        rw [← h]
        exact List.mem_cons_self _ _
      · simp only [lookupCell.go, if_neg h1] at h
        exact List.mem_cons_of_mem _ (lookupGo_mem rest r n h)

theorem heapOk_domLt (h : Heap) (hok : heapOk h = true) : domLtP h := by
  intro r hs
  obtain ⟨n, hn⟩ := Option.isSome_iff_exists.mp hs
  have hmem := lookupGo_mem h.cells r n hn
  have := List.all_eq_true.mp hok _ hmem
  simp only [Bool.and_eq_true, decide_eq_true_eq] at this
  exact this.1

theorem heapOk_closed (h : Heap) (hok : heapOk h = true) : closedRefsP h := by
  intro r n hn x hx
  have hmem := lookupGo_mem h.cells r n hn
  have := List.all_eq_true.mp hok _ hmem
  simp only [Bool.and_eq_true, decide_eq_true_eq] at this
  have h2 := List.all_eq_true.mp this.2 x hx
  simpa using h2

theorem extH_refl (h : Heap) (hd : domLtP h) : extH h h := by
  refine ⟨le_refl _, fun _ _ => rfl, ?_⟩
  intro r n hr hl x hx
  have := hd r (by rw [hl]; rfl)
  omega

theorem extH_trans {a b c : Heap} (h1 : extH a b) (h2 : extH b c) :
    extH a c := by
  obtain ⟨hn1, hlow1, hhigh1⟩ := h1
  obtain ⟨hn2, hlow2, hhigh2⟩ := h2
  refine ⟨le_trans hn1 hn2, ?_, ?_⟩
  · intro r hr
    rw [hlow2 r (lt_of_lt_of_le hr hn1), hlow1 r hr]
  · intro r n hr hl x hx
    by_cases hrb : r < b.next
    · exact hhigh1 r n hr (by rw [← hlow2 r hrb]; exact hl) x hx
    · exact le_trans hn1 (hhigh2 r n (le_of_not_lt hrb) hl x hx)

theorem mem_refsOfNode_obj {fs : List (String × HVal)} {kv : String × HVal}
    {x : Nat} (hkv : kv ∈ fs) (hx : kv.2 = .ref x) :
    x ∈ refsOfNode (.obj fs) := by
  simp only [refsOfNode]
  refine List.mem_filterMap.mpr ⟨kv, hkv, ?_⟩
  obtain ⟨k, w⟩ := kv
  simp only at hx
  subst hx
  rfl

theorem mem_refsOfNode_arrElem {es : List HVal} {ps : List (String × HVal)}
    {e : HVal} {x : Nat} (he : e ∈ es) (hx : e = .ref x) :
    x ∈ refsOfNode (.arr es ps) := by
  simp only [refsOfNode]
  refine List.mem_append.mpr (Or.inl (List.mem_filterMap.mpr ⟨e, he, ?_⟩))
  subst hx
  rfl

theorem mem_refsOfNode_arrProp {es : List HVal} {ps : List (String × HVal)}
    {kv : String × HVal} {x : Nat} (hkv : kv ∈ ps) (hx : kv.2 = .ref x) :
    x ∈ refsOfNode (.arr es ps) := by
  simp only [refsOfNode]
  refine List.mem_append.mpr (Or.inr (List.mem_filterMap.mpr ⟨kv, hkv, ?_⟩))
  obtain ⟨k, w⟩ := kv
  simp only at hx
  subst hx
  rfl

theorem lookupHF_mem : ∀ (fs : List (String × HVal)) (k : String) (w : HVal),
    lookupHF fs k = some w → ∃ kk, (kk, w) ∈ fs
  | [], _, _, h => by simp [lookupHF] at h
  | kv :: rest, k, w, h => by
      by_cases h1 : kv.1 = k
      · simp only [lookupHF, if_pos h1, Option.some.injEq] at h
        refine ⟨kv.1, ?_⟩
        rw [← h]
        exact List.mem_cons_self _ _
      · simp only [lookupHF, if_neg h1] at h
        obtain ⟨kk, hm⟩ := lookupHF_mem rest k w h
        exact ⟨kk, List.mem_cons_of_mem _ hm⟩

theorem nodeGet_ref_mem (n : HNode) (k : String) (rc : Nat)
    (h : nodeGet n k = .ref rc) : rc ∈ refsOfNode n := by
  cases n with
  | obj fs =>
      simp only [nodeGet] at h
      cases hl : lookupHF fs k with
      | none => rw [hl] at h; exact absurd h (by simp)
      | some w =>
          rw [hl] at h
          simp only [Option.getD_some] at h
          obtain ⟨kk, hm⟩ := lookupHF_mem fs k w hl
          exact mem_refsOfNode_obj hm (by rw [h])
  | arr es ps =>
      simp only [nodeGet] at h
      by_cases hidx : isIndexKey k = true
      · rw [if_pos hidx] at h
        cases hl : es[digitsVal k.data]? with
        | none => rw [hl] at h; exact absurd h (by simp)
        | some e =>
            rw [hl] at h
            simp only [Option.getD_some] at h
            exact mem_refsOfNode_arrElem (List.getElem?_mem hl) h
      · rw [if_neg hidx] at h
        cases hl : lookupHF ps k with
        | none => rw [hl] at h; exact absurd h (by simp)
        | some w =>
            rw [hl] at h
            simp only [Option.getD_some] at h
            obtain ⟨kk, hm⟩ := lookupHF_mem ps k w hl
            exact mem_refsOfNode_arrProp hm (by rw [h])

theorem upsertHF_mem : ∀ (fs : List (String × HVal)) (k : String) (x : HVal)
    (kv : String × HVal), kv ∈ upsertHF fs k x → kv ∈ fs ∨ kv = (k, x)
  | [], k, x, kv, h => by
      simp [upsertHF] at h
      exact Or.inr h
  | c :: rest, k, x, kv, h => by
      by_cases h1 : c.1 = k
      · simp only [upsertHF, h1, if_pos] at h
        rcases List.mem_cons.mp h with h2 | h2
        · exact Or.inr h2
        · exact Or.inl (List.mem_cons_of_mem _ h2)
      · simp only [upsertHF, h1, if_neg, ite_false] at h
        rcases List.mem_cons.mp h with h2 | h2
        · exact Or.inl (h2 ▸ List.mem_cons_self _ _)
        · rcases upsertHF_mem rest k x kv h2 with h3 | h3
          · exact Or.inl (List.mem_cons_of_mem _ h3)
          · exact Or.inr h3

theorem setPadH_mem : ∀ (es : List HVal) (i : Nat) (x : HVal) (e : HVal),
    e ∈ setPadH es i x → e ∈ es ∨ e = x ∨ e = .undef
  | [], 0, x, e, h => by
      simp [setPadH] at h
      exact Or.inr (Or.inl h)
  | [], i + 1, x, e, h => by
      simp only [setPadH] at h
      rcases List.mem_cons.mp h with h2 | h2
      · exact Or.inr (Or.inr h2)
      · rcases setPadH_mem [] i x e h2 with h3 | h3
        · exact Or.inl h3
        · exact Or.inr h3
  | c :: rest, 0, x, e, h => by
      simp only [setPadH] at h
      rcases List.mem_cons.mp h with h2 | h2
      · exact Or.inr (Or.inl h2)
      · exact Or.inl (List.mem_cons_of_mem _ h2)
  | c :: rest, i + 1, x, e, h => by
      simp only [setPadH] at h
      rcases List.mem_cons.mp h with h2 | h2
      · exact Or.inl (h2 ▸ List.mem_cons_self _ _)
      · rcases setPadH_mem rest i x e h2 with h3 | h3
        · exact Or.inl (List.mem_cons_of_mem _ h3)
        · exact Or.inr h3

theorem refsOfNode_nodeSet (n : HNode) (k : String) (x : HVal) :
    ∀ y ∈ refsOfNode (nodeSet n k x), y ∈ refsOfNode n ∨ x = .ref y := by
  intro y hy
  cases n with
  | obj fs =>
      simp only [nodeSet, refsOfNode] at hy
      rw [List.mem_filterMap] at hy
      obtain ⟨kv, hkv, href⟩ := hy
      rcases upsertHF_mem fs k x kv hkv with h2 | h2
      · exact Or.inl (by
          simp only [refsOfNode]
          exact List.mem_filterMap.mpr ⟨kv, h2, href⟩)
      · subst h2
        cases x with
        | ref r =>
            simp only [refsOfNode.refOf] at href
            cases href
            exact Or.inr rfl
        | undef => simp [refsOfNode.refOf] at href
        | null => simp [refsOfNode.refOf] at href
        | bool b => simp [refsOfNode.refOf] at href
        | num m => simp [refsOfNode.refOf] at href
        | str s2 => simp [refsOfNode.refOf] at href
  | arr es ps =>
      simp only [nodeSet] at hy
      by_cases hidx : isIndexKey k = true
      · rw [if_pos hidx] at hy
        simp only [refsOfNode] at hy
        rcases List.mem_append.mp hy with hy2 | hy2
        · obtain ⟨e, he, href⟩ := List.mem_filterMap.mp hy2
          rcases setPadH_mem es (digitsVal k.data) x e he with h3 | h3 | h3
          · exact Or.inl (mem_refsOfNode_arrElem h3 (by
              cases e <;> simp [refsOfNode.refOfV] at href <;> rw [href]))
          · subst h3
            cases e with
            | ref r =>
                simp only [refsOfNode.refOfV] at href
                cases href
                exact Or.inr rfl
            | undef => simp [refsOfNode.refOfV] at href
            | null => simp [refsOfNode.refOfV] at href
            | bool b => simp [refsOfNode.refOfV] at href
            | num m => simp [refsOfNode.refOfV] at href
            | str s2 => simp [refsOfNode.refOfV] at href
          · subst h3; simp [refsOfNode.refOfV] at href
        · exact Or.inl (by
            simp only [refsOfNode]
            exact List.mem_append.mpr (Or.inr hy2))
      · rw [if_neg hidx] at hy
        simp only [refsOfNode] at hy
        rcases List.mem_append.mp hy with hy2 | hy2
        · exact Or.inl (by
            simp only [refsOfNode]
            exact List.mem_append.mpr (Or.inl hy2))
        · obtain ⟨kv, hkv, href⟩ := List.mem_filterMap.mp hy2
          rcases upsertHF_mem ps k x kv hkv with h2 | h2
          · exact Or.inl (by
              simp only [refsOfNode]
              exact List.mem_append.mpr (Or.inr (List.mem_filterMap.mpr
                ⟨kv, h2, href⟩)))
          · subst h2
            cases x with
            | ref r =>
                simp only [refsOfNode.refOf] at href
                cases href
                exact Or.inr rfl
            | undef => simp [refsOfNode.refOf] at href
            | null => simp [refsOfNode.refOf] at href
            | bool b => simp [refsOfNode.refOf] at href
            | num m => simp [refsOfNode.refOf] at href
            | str s2 => simp [refsOfNode.refOf] at href

/-- Threading a clone-like step through a list extends the heap, keeps the
domain bounded, and adds only entries satisfying a `next`-monotone
predicate. -/
theorem foldOpt_ext {α β : Type} (g : Heap × List α → β → Option (Heap × List α))
    (P : Nat → α → Prop)
    (hmono : ∀ (N N2 : Nat) (x : α), N ≤ N2 → P N2 x → P N x)
    (hstep : ∀ (st : Heap × List α) (b : β) (st2 : Heap × List α),
      g st b = some st2 → domLtP st.1 →
      extH st.1 st2.1 ∧ domLtP st2.1 ∧ ∀ x ∈ st2.2, x ∈ st.2 ∨ P st.1.next x) :
    ∀ (l : List β) (st st2 : Heap × List α),
    foldOpt g st l = some st2 → domLtP st.1 →
    extH st.1 st2.1 ∧ domLtP st2.1 ∧ ∀ x ∈ st2.2, x ∈ st.2 ∨ P st.1.next x
  | [], st, st2, hf, hd => by
      simp only [foldOpt, Option.some.injEq] at hf
      subst hf
      exact ⟨extH_refl st.1 hd, hd, fun x hx => Or.inl hx⟩
  | b :: rest, st, st2, hf, hd => by
      simp only [foldOpt] at hf
      cases hg : g st b with
      | none => rw [hg] at hf; exact absurd hf (by simp)
      | some stm =>
          rw [hg] at hf
          obtain ⟨e1, d1, m1⟩ := hstep st b stm hg hd
          obtain ⟨e2, d2, m2⟩ := foldOpt_ext g P hmono hstep rest stm st2 hf d1
          refine ⟨extH_trans e1 e2, d2, ?_⟩
          intro x hx
          rcases m2 x hx with hx2 | hx2
          · exact m1 x hx2
          · exact Or.inr (hmono _ _ x e1.1 hx2)

/-- Allocating a node whose references are all high preserves the
extension facts relative to the original heap. -/
theorem extH_alloc {h h1 : Heap} (n : HNode) (he : extH h h1) (hd1 : domLtP h1)
    (hrefs : ∀ x ∈ refsOfNode n, h.next ≤ x) :
    extH h (allocCell h1 n).1 ∧ domLtP (allocCell h1 n).1 ∧
      h.next ≤ (allocCell h1 n).2 ∧
      lookupCell (allocCell h1 n).1 (allocCell h1 n).2 = some n := by
  obtain ⟨hn, hlow, hhigh⟩ := he
  have hnone : lookupCell h1 h1.next = none := by
    cases hl : lookupCell h1 h1.next with
    | none => rfl
    | some m =>
        have := hd1 h1.next (by rw [hl]; rfl)
        omega
  have hself : lookupCell (allocCell h1 n).1 h1.next = some n :=
    lookupCell_alloc_self h1 n hnone
  have hnext : (allocCell h1 n).1.next = h1.next + 1 := rfl
  refine ⟨⟨?_, ?_, ?_⟩, ?_, ?_, ?_⟩
  · rw [hnext]; omega
  · intro r hr
    rw [lookupCell_alloc_ne h1 n r (by omega), hlow r hr]
  · intro r m hr hl x hx
    by_cases hr1 : r = h1.next
    · subst hr1
      rw [hself] at hl
      cases hl
      exact hrefs x hx
    · rw [lookupCell_alloc_ne h1 n r hr1] at hl
      exact hhigh r m hr hl x hx
  · intro r hr
    by_cases hr1 : r = h1.next
    · subst hr1; rw [hnext]; omega
    · rw [lookupCell_alloc_ne h1 n r hr1] at hr
      have := hd1 r hr
      rw [hnext]
      omega
  · exact hn
  · exact hself

/-- The clone extends the heap: old cells are untouched, the domain stays
bounded, fresh cells point only at fresh cells, and a returned reference
is fresh. -/
theorem cloneVal_ext : ∀ (fuel : Nat) (h : Heap) (v : HVal) (h2 : Heap)
    (v2 : HVal), cloneVal fuel h v = some (h2, v2) → domLtP h →
    extH h h2 ∧ domLtP h2 ∧ (∀ r, v2 = .ref r → h.next ≤ r)
  | 0, h, v, h2, v2, hclone, _ => by simp [cloneVal] at hclone
  | fuel + 1, h, v, h2, v2, hclone, hd => by
      cases v with
      | undef =>
          simp only [cloneVal, Option.some.injEq, Prod.mk.injEq] at hclone
          obtain ⟨rfl, rfl⟩ := hclone
          exact ⟨extH_refl h hd, hd, fun r hr => by cases hr⟩
      | null =>
          simp only [cloneVal, Option.some.injEq, Prod.mk.injEq] at hclone
          obtain ⟨rfl, rfl⟩ := hclone
          exact ⟨extH_refl h hd, hd, fun r hr => by cases hr⟩
      | bool b =>
          simp only [cloneVal, Option.some.injEq, Prod.mk.injEq] at hclone
          obtain ⟨rfl, rfl⟩ := hclone
          exact ⟨extH_refl h hd, hd, fun r hr => by cases hr⟩
      | num n =>
          simp only [cloneVal, Option.some.injEq, Prod.mk.injEq] at hclone
          obtain ⟨rfl, rfl⟩ := hclone
          exact ⟨extH_refl h hd, hd, fun r hr => by cases hr⟩
      | str s =>
          simp only [cloneVal, Option.some.injEq, Prod.mk.injEq] at hclone
          obtain ⟨rfl, rfl⟩ := hclone
          exact ⟨extH_refl h hd, hd, fun r hr => by cases hr⟩
      | ref r =>
          simp only [cloneVal] at hclone
          cases hlook : lookupCell h r with
          | none => rw [hlook] at hclone; exact absurd hclone (by simp)
          | some node =>
              rw [hlook] at hclone
              cases node with
              | obj fs =>
                  dsimp only at hclone
                  cases hfold : foldOpt (fun acc kv =>
                      match kv.2 with
                      | .undef => some acc
                      | w =>
                          match cloneVal fuel acc.1 w with
                          | some (h2, w2) => some (h2, acc.2 ++ [(kv.1, w2)])
                          | none => none) (h, ([] : List (String × HVal))) fs with
                  | none => rw [hfold] at hclone; exact absurd hclone (by simp)
                  | some st1 =>
                      obtain ⟨h1, fs1⟩ := st1
                      rw [hfold] at hclone
                      simp only [Option.some.injEq, Prod.mk.injEq] at hclone
                      obtain ⟨rfl, rfl⟩ := hclone
                      have hstep : ∀ (st : Heap × List (String × HVal))
                          (b : String × HVal) (st2 : Heap × List (String × HVal)),
                          (match b.2 with
                          | .undef => some st
                          | w =>
                              match cloneVal fuel st.1 w with
                              | some (h2, w2) => some (h2, st.2 ++ [(b.1, w2)])
                              | none => none) = some st2 → domLtP st.1 →
                          extH st.1 st2.1 ∧ domLtP st2.1 ∧
                          ∀ x ∈ st2.2, x ∈ st.2 ∨
                            (∀ rr, x.2 = .ref rr → st.1.next ≤ rr) := by
                        intro st b st2 hg hdst
                        cases hb : b.2 with
                        | undef =>
                            rw [hb] at hg
                            dsimp only at hg
                            cases hg
                            exact ⟨extH_refl st.1 hdst, hdst,
                              fun x hx => Or.inl hx⟩
                        | ref rr =>
                            rw [hb] at hg
                            dsimp only at hg
                            cases hc : cloneVal fuel st.1 (.ref rr) with
                            | none => rw [hc] at hg; exact absurd hg (by simp)
                            | some p =>
                                obtain ⟨hh2, w2⟩ := p
                                rw [hc] at hg
                                cases hg
                                obtain ⟨e1, d1, hv1⟩ :=
                                  cloneVal_ext fuel st.1 (.ref rr) hh2 w2 hc hdst
                                refine ⟨e1, d1, ?_⟩
                                intro x hx
                                rcases List.mem_append.mp hx with hx2 | hx2
                                · exact Or.inl hx2
                                · refine Or.inr ?_
                                  rcases List.mem_singleton.mp hx2 with rfl
                                  intro r3 hr3
                                  exact hv1 r3 hr3
                        | null =>
                            rw [hb] at hg
                            dsimp only at hg
                            cases hc : cloneVal fuel st.1 .null with
                            | none => rw [hc] at hg; exact absurd hg (by simp)
                            | some p =>
                                obtain ⟨hh2, w2⟩ := p
                                rw [hc] at hg
                                cases hg
                                obtain ⟨e1, d1, hv1⟩ :=
                                  cloneVal_ext fuel st.1 .null hh2 w2 hc hdst
                                refine ⟨e1, d1, ?_⟩
                                intro x hx
                                rcases List.mem_append.mp hx with hx2 | hx2
                                · exact Or.inl hx2
                                · refine Or.inr ?_
                                  rcases List.mem_singleton.mp hx2 with rfl
                                  intro r3 hr3
                                  exact hv1 r3 hr3
                        | bool bb =>
                            rw [hb] at hg
                            dsimp only at hg
                            cases hc : cloneVal fuel st.1 (.bool bb) with
                            | none => rw [hc] at hg; exact absurd hg (by simp)
                            | some p =>
                                obtain ⟨hh2, w2⟩ := p
                                rw [hc] at hg
                                cases hg
                                obtain ⟨e1, d1, hv1⟩ :=
                                  cloneVal_ext fuel st.1 (.bool bb) hh2 w2 hc hdst
                                refine ⟨e1, d1, ?_⟩
                                intro x hx
                                rcases List.mem_append.mp hx with hx2 | hx2
                                · exact Or.inl hx2
                                · refine Or.inr ?_
                                  rcases List.mem_singleton.mp hx2 with rfl
                                  intro r3 hr3
                                  exact hv1 r3 hr3
                        | num nn =>
                            rw [hb] at hg
                            dsimp only at hg
                            cases hc : cloneVal fuel st.1 (.num nn) with
                            | none => rw [hc] at hg; exact absurd hg (by simp)
                            | some p =>
                                obtain ⟨hh2, w2⟩ := p
                                rw [hc] at hg
                                cases hg
                                obtain ⟨e1, d1, hv1⟩ :=
                                  cloneVal_ext fuel st.1 (.num nn) hh2 w2 hc hdst
                                refine ⟨e1, d1, ?_⟩
                                intro x hx
                                rcases List.mem_append.mp hx with hx2 | hx2
                                · exact Or.inl hx2
                                · refine Or.inr ?_
                                  rcases List.mem_singleton.mp hx2 with rfl
                                  intro r3 hr3
                                  exact hv1 r3 hr3
                        | str ss =>
                            rw [hb] at hg
                            dsimp only at hg
                            cases hc : cloneVal fuel st.1 (.str ss) with
                            | none => rw [hc] at hg; exact absurd hg (by simp)
                            | some p =>
                                obtain ⟨hh2, w2⟩ := p
                                rw [hc] at hg
                                cases hg
                                obtain ⟨e1, d1, hv1⟩ :=
                                  cloneVal_ext fuel st.1 (.str ss) hh2 w2 hc hdst
                                refine ⟨e1, d1, ?_⟩
                                intro x hx
                                rcases List.mem_append.mp hx with hx2 | hx2
                                · exact Or.inl hx2
                                · refine Or.inr ?_
                                  rcases List.mem_singleton.mp hx2 with rfl
                                  intro r3 hr3
                                  exact hv1 r3 hr3
                      obtain ⟨e1, d1, m1⟩ := foldOpt_ext _
                        (fun N kv => ∀ rr, kv.2 = .ref rr → N ≤ rr)
                        (by intro N N2 x hNN hP rr hrr; exact le_trans hNN (hP rr hrr))
                        hstep fs (h, []) (h1, fs1) hfold hd
                      have hrefs : ∀ x ∈ refsOfNode (.obj fs1), h.next ≤ x := by
                        intro x hx
                        simp only [refsOfNode] at hx
                        obtain ⟨kv, hkv, href⟩ := List.mem_filterMap.mp hx
                        rcases m1 kv hkv with hm | hm
                        · exact absurd hm (List.not_mem_nil kv)
                        · obtain ⟨kk, w⟩ := kv
                          cases w with
                          | ref rr =>
                              simp only [refsOfNode.refOf] at href
                              cases href
                              exact hm x rfl
                          | undef => simp [refsOfNode.refOf] at href
                          | null => simp [refsOfNode.refOf] at href
                          | bool b => simp [refsOfNode.refOf] at href
                          | num m2 => simp [refsOfNode.refOf] at href
                          | str s2 => simp [refsOfNode.refOf] at href
                      obtain ⟨ea, da, hge, -⟩ := extH_alloc (.obj fs1) e1 d1 hrefs
                      exact ⟨ea, da, fun r3 hr3 => by cases hr3; exact hge⟩
              | arr es ps =>
                  dsimp only at hclone
                  cases hfold : foldOpt (fun acc e =>
                      match e with
                      | .undef => some (acc.1, acc.2 ++ [HVal.null])
                      | w =>
                          match cloneVal fuel acc.1 w with
                          | some (h2, w2) => some (h2, acc.2 ++ [w2])
                          | none => none) (h, ([] : List HVal)) es with
                  | none => rw [hfold] at hclone; exact absurd hclone (by simp)
                  | some st1 =>
                      obtain ⟨h1, es1⟩ := st1
                      rw [hfold] at hclone
                      simp only [Option.some.injEq, Prod.mk.injEq] at hclone
                      obtain ⟨rfl, rfl⟩ := hclone
                      have hstep : ∀ (st : Heap × List HVal) (b : HVal)
                          (st2 : Heap × List HVal),
                          (match b with
                          | .undef => some (st.1, st.2 ++ [HVal.null])
                          | w =>
                              match cloneVal fuel st.1 w with
                              | some (h2, w2) => some (h2, st.2 ++ [w2])
                              | none => none) = some st2 → domLtP st.1 →
                          extH st.1 st2.1 ∧ domLtP st2.1 ∧
                          ∀ x ∈ st2.2, x ∈ st.2 ∨
                            (∀ rr, x = .ref rr → st.1.next ≤ rr) := by
                        intro st b st2 hg hdst
                        cases b with
                        | undef =>
                            dsimp only at hg
                            cases hg
                            refine ⟨extH_refl st.1 hdst, hdst, ?_⟩
                            intro x hx
                            rcases List.mem_append.mp hx with hx2 | hx2
                            · exact Or.inl hx2
                            · rcases List.mem_singleton.mp hx2 with rfl
                              exact Or.inr (fun rr hrr => by cases hrr)
                        | ref rr =>
                            dsimp only at hg
                            cases hc : cloneVal fuel st.1 (.ref rr) with
                            | none => rw [hc] at hg; exact absurd hg (by simp)
                            | some p =>
                                obtain ⟨hh2, w2⟩ := p
                                rw [hc] at hg
                                cases hg
                                obtain ⟨e1, d1, hv1⟩ :=
                                  cloneVal_ext fuel st.1 (.ref rr) hh2 w2 hc hdst
                                refine ⟨e1, d1, ?_⟩
                                intro x hx
                                rcases List.mem_append.mp hx with hx2 | hx2
                                · exact Or.inl hx2
                                · rcases List.mem_singleton.mp hx2 with rfl
                                  exact Or.inr (fun r3 hr3 => hv1 r3 hr3)
                        | null =>
                            dsimp only at hg
                            cases hc : cloneVal fuel st.1 .null with
                            | none => rw [hc] at hg; exact absurd hg (by simp)
                            | some p =>
                                obtain ⟨hh2, w2⟩ := p
                                rw [hc] at hg
                                cases hg
                                obtain ⟨e1, d1, hv1⟩ :=
                                  cloneVal_ext fuel st.1 .null hh2 w2 hc hdst
                                refine ⟨e1, d1, ?_⟩
                                intro x hx
                                rcases List.mem_append.mp hx with hx2 | hx2
                                · exact Or.inl hx2
                                · rcases List.mem_singleton.mp hx2 with rfl
                                  exact Or.inr (fun r3 hr3 => hv1 r3 hr3)
                        | bool bb =>
                            dsimp only at hg
                            cases hc : cloneVal fuel st.1 (.bool bb) with
                            | none => rw [hc] at hg; exact absurd hg (by simp)
                            | some p =>
                                obtain ⟨hh2, w2⟩ := p
                                rw [hc] at hg
                                cases hg
                                obtain ⟨e1, d1, hv1⟩ :=
                                  cloneVal_ext fuel st.1 (.bool bb) hh2 w2 hc hdst
                                refine ⟨e1, d1, ?_⟩
                                intro x hx
                                rcases List.mem_append.mp hx with hx2 | hx2
                                · exact Or.inl hx2
                                · rcases List.mem_singleton.mp hx2 with rfl
                                  exact Or.inr (fun r3 hr3 => hv1 r3 hr3)
                        | num nn =>
                            dsimp only at hg
                            cases hc : cloneVal fuel st.1 (.num nn) with
                            | none => rw [hc] at hg; exact absurd hg (by simp)
                            | some p =>
                                obtain ⟨hh2, w2⟩ := p
                                rw [hc] at hg
                                cases hg
                                obtain ⟨e1, d1, hv1⟩ :=
                                  cloneVal_ext fuel st.1 (.num nn) hh2 w2 hc hdst
                                refine ⟨e1, d1, ?_⟩
                                intro x hx
                                rcases List.mem_append.mp hx with hx2 | hx2
                                · exact Or.inl hx2
                                · rcases List.mem_singleton.mp hx2 with rfl
                                  exact Or.inr (fun r3 hr3 => hv1 r3 hr3)
                        | str ss =>
                            dsimp only at hg
                            cases hc : cloneVal fuel st.1 (.str ss) with
                            | none => rw [hc] at hg; exact absurd hg (by simp)
                            | some p =>
                                obtain ⟨hh2, w2⟩ := p
                                rw [hc] at hg
                                cases hg
                                obtain ⟨e1, d1, hv1⟩ :=
                                  cloneVal_ext fuel st.1 (.str ss) hh2 w2 hc hdst
                                refine ⟨e1, d1, ?_⟩
                                intro x hx
                                rcases List.mem_append.mp hx with hx2 | hx2
                                · exact Or.inl hx2
                                · rcases List.mem_singleton.mp hx2 with rfl
                                  exact Or.inr (fun r3 hr3 => hv1 r3 hr3)
                      obtain ⟨e1, d1, m1⟩ := foldOpt_ext _
                        (fun N e => ∀ rr, e = .ref rr → N ≤ rr)
                        (by intro N N2 x hNN hP rr hrr; exact le_trans hNN (hP rr hrr))
                        hstep es (h, []) (h1, es1) hfold hd
                      have hrefs : ∀ x ∈ refsOfNode (.arr es1 []), h.next ≤ x := by
                        intro x hx
                        simp only [refsOfNode] at hx
                        rcases List.mem_append.mp hx with hx2 | hx2
                        · obtain ⟨e, he, href⟩ := List.mem_filterMap.mp hx2
                          rcases m1 e he with hm | hm
                          · exact absurd hm (List.not_mem_nil e)
                          · cases e with
                            | ref rr =>
                                simp only [refsOfNode.refOfV] at href
                                cases href
                                exact hm x rfl
                            | undef => simp [refsOfNode.refOfV] at href
                            | null => simp [refsOfNode.refOfV] at href
                            | bool b => simp [refsOfNode.refOfV] at href
                            | num m2 => simp [refsOfNode.refOfV] at href
                            | str s2 => simp [refsOfNode.refOfV] at href
                        · simp at hx2
                      obtain ⟨ea, da, hge, -⟩ := extH_alloc (.arr es1 []) e1 d1 hrefs
                      exact ⟨ea, da, fun r3 hr3 => by cases hr3; exact hge⟩

theorem lookupGo_append_of_some : ∀ (cells : List (Nat × HNode))
    (x : Nat × HNode) (r : Nat) (n : HNode), lookupCell.go cells r = some n →
    lookupCell.go (cells ++ [x]) r = some n
  | [], _, r, n, h => by simp [lookupCell.go] at h
  | c :: rest, x, r, n, h => by
      by_cases h1 : c.1 = r
      · simp only [lookupCell.go, if_pos h1] at h ⊢
        exact h
      · simp only [lookupCell.go, if_neg h1] at h ⊢
        exact lookupGo_append_of_some rest x r n h

/-- One alloc-then-link step of the mutating `set` preserves the frame
invariants at level `N`. -/
theorem hset_step_inv (h : Heap) (r : Nat) (k : String) (fresh : HNode)
    (hfresh : refsOfNode fresh = []) (N : Nat) (hNr : N ≤ r) (hNn : N ≤ h.next)
    (hhigh : highClosedP N h) :
    N ≤ (allocCell h fresh).2 ∧
    N ≤ (updateCell (allocCell h fresh).1 r
      (nodeSet ((lookupCell h r).getD (.obj [])) k
        (.ref (allocCell h fresh).2))).next ∧
    highClosedP N (updateCell (allocCell h fresh).1 r
      (nodeSet ((lookupCell h r).getD (.obj [])) k
        (.ref (allocCell h fresh).2))) ∧
    (∀ r2, r2 < N → lookupCell (updateCell (allocCell h fresh).1 r
      (nodeSet ((lookupCell h r).getD (.obj [])) k
        (.ref (allocCell h fresh).2))) r2 = lookupCell h r2) := by
  have halloc2 : (allocCell h fresh).2 = h.next := rfl
  have hnext : (updateCell (allocCell h fresh).1 r
      (nodeSet ((lookupCell h r).getD (.obj [])) k
        (.ref (allocCell h fresh).2))).next = h.next + 1 := rfl
  refine ⟨by omega, by omega, ?_, ?_⟩
  · intro r3 n3 hr3 hl3 x hx
    rw [lookupCell_updateCell] at hl3
    by_cases h3 : r3 = r
    · rw [if_pos h3] at hl3
      cases hl3
      rcases refsOfNode_nodeSet _ k (.ref (allocCell h fresh).2) x hx
        with hc | hc
      · cases hlook : lookupCell h r with
        | none =>
            rw [hlook] at hc
            simp [refsOfNode] at hc
        | some node =>
            rw [hlook] at hc
            simp only [Option.getD_some] at hc
            exact hhigh r node hNr hlook x hc
      · cases hc
        omega
    · rw [if_neg h3] at hl3
      by_cases h4 : r3 = h.next
      · subst h4
        cases hold : lookupCell h h.next with
        | some m =>
            have : lookupCell (allocCell h fresh).1 h.next = some m :=
              lookupGo_append_of_some h.cells _ h.next m hold
            rw [this] at hl3
            cases hl3
            exact hhigh h.next n3 hr3 hold x hx
        | none =>
            have : lookupCell (allocCell h fresh).1 h.next = some fresh :=
              lookupCell_alloc_self h fresh hold
            rw [this] at hl3
            cases hl3
            rw [hfresh] at hx
            exact absurd hx (List.not_mem_nil x)
      · rw [lookupCell_alloc_ne h fresh r3 h4] at hl3
        exact hhigh r3 n3 hr3 hl3 x hx
  · intro r2 hr2
    rw [lookupCell_updateCell, if_neg (by omega),
      lookupCell_alloc_ne h fresh r2 (by omega)]

/-- The mutating `set` starting from a high root touches only high cells:
every cell below `N` is untouched. -/
theorem hset_frame : ∀ (segs : List String) (h : Heap) (r : Nat) (v : HVal)
    (N : Nat), N ≤ r → N ≤ h.next → highClosedP N h →
    ∀ r2, r2 < N → lookupCell (hset h r segs v) r2 = lookupCell h r2
  | [], _, _, _, _, _, _, _, _, _ => rfl
  | [k], h, r, v, N, hNr, _, _, r2, hr2 => by
      show lookupCell (updateCell h r _) r2 = _
      rw [lookupCell_updateCell]
      exact if_neg (by omega)
  | k :: k2 :: rest, h, r, v, N, hNr, hNn, hhigh, r2, hr2 => by
      show lookupCell
        (match nodeGet ((lookupCell h r).getD (.obj [])) k with
        | .ref rc => hset h rc (k2 :: rest) v
        | _ =>
            let fresh : HNode := if isIndexKey k2 then .arr [] [] else .obj []
            hset (updateCell (allocCell h fresh).1 r
                (nodeSet ((lookupCell h r).getD (.obj [])) k
                  (.ref (allocCell h fresh).2)))
              (allocCell h fresh).2 (k2 :: rest) v) r2 = lookupCell h r2
      have hfresh : refsOfNode
          (if isIndexKey k2 then HNode.arr [] [] else HNode.obj []) = [] := by
        by_cases hI : isIndexKey k2 = true
        · rw [if_pos hI]; rfl
        · rw [if_neg hI]; rfl
      cases hchild : nodeGet ((lookupCell h r).getD (.obj [])) k with
      | ref rc =>
          have hrc : N ≤ rc := by
            cases hlook : lookupCell h r with
            | none =>
                rw [hlook] at hchild
                simp [nodeGet, lookupHF] at hchild
            | some node =>
                rw [hlook] at hchild
                simp only [Option.getD_some] at hchild
                exact hhigh r node hNr hlook rc
                  (nodeGet_ref_mem node k rc hchild)
          exact hset_frame (k2 :: rest) h rc v N hrc hNn hhigh r2 hr2
      | undef =>
          dsimp only
          obtain ⟨i1, i2, i3, i4⟩ := hset_step_inv h r k _ hfresh N hNr hNn hhigh
          rw [hset_frame (k2 :: rest) _ _ v N i1 i2 i3 r2 hr2, i4 r2 hr2]
      | null =>
          dsimp only
          obtain ⟨i1, i2, i3, i4⟩ := hset_step_inv h r k _ hfresh N hNr hNn hhigh
          rw [hset_frame (k2 :: rest) _ _ v N i1 i2 i3 r2 hr2, i4 r2 hr2]
      | bool b =>
          dsimp only
          obtain ⟨i1, i2, i3, i4⟩ := hset_step_inv h r k _ hfresh N hNr hNn hhigh
          rw [hset_frame (k2 :: rest) _ _ v N i1 i2 i3 r2 hr2, i4 r2 hr2]
      | num n =>
          dsimp only
          obtain ⟨i1, i2, i3, i4⟩ := hset_step_inv h r k _ hfresh N hNr hNn hhigh
          rw [hset_frame (k2 :: rest) _ _ v N i1 i2 i3 r2 hr2, i4 r2 hr2]
      | str sss =>
          dsimp only
          obtain ⟨i1, i2, i3, i4⟩ := hset_step_inv h r k _ hfresh N hNr hNn hhigh
          rw [hset_frame (k2 :: rest) _ _ v N i1 i2 i3 r2 hr2, i4 r2 hr2]

theorem mapOpt_congr {α β : Type} : ∀ (l : List α) (f g : α → Option β),
    (∀ x ∈ l, f x = g x) → mapOpt f l = mapOpt g l
  | [], _, _, _ => rfl
  | a :: rest, f, g, h => by
      simp only [mapOpt, h a (List.mem_cons_self _ _),
        mapOpt_congr rest f g (fun x hx => h x (List.mem_cons_of_mem _ hx))]

/-- Reading a value out of a heap that agrees with the original on the
original's whole domain gives the same result, provided the original heap
is reference-closed and the start value's references exist. -/
theorem readVal_stable : ∀ (fuel : Nat) (h h2 : Heap) (v : HVal),
    (∀ r, (lookupCell h r).isSome → lookupCell h2 r = lookupCell h r) →
    closedRefsP h →
    (∀ r, v = .ref r → (lookupCell h r).isSome) →
    readVal fuel h2 v = readVal fuel h v
  | 0, _, _, _, _, _, _ => rfl
  | fuel + 1, h, h2, v, hagree, hclosed, hin => by
      cases v with
      | undef => rfl
      | null => rfl
      | bool b => rfl
      | num n => rfl
      | str s => rfl
      | ref r =>
          have hs := hin r rfl
          obtain ⟨node, hl⟩ := Option.isSome_iff_exists.mp hs
          simp only [readVal]
          rw [hagree r hs, hl]
          cases node with
          | obj fs =>
              dsimp only
              rw [mapOpt_congr fs _ _ ?heq]
              case heq =>
                intro kv hkv
                rw [readVal_stable fuel h h2 kv.2 hagree hclosed ?hin2]
                case hin2 =>
                  intro rr hrr
                  exact hclosed r _ hl rr (mem_refsOfNode_obj hkv hrr)
          | arr es ps =>
              dsimp only
              rw [mapOpt_congr es (readVal fuel h2) (readVal fuel h) ?heqe,
                mapOpt_congr ps _ _ ?heqp]
              case heqe =>
                intro e he
                exact readVal_stable fuel h h2 e hagree hclosed
                  (fun rr hrr => hclosed r _ hl rr (mem_refsOfNode_arrElem he hrr))
              case heqp =>
                intro kv hkv
                rw [readVal_stable fuel h h2 kv.2 hagree hclosed
                  (fun rr hrr => hclosed r _ hl rr (mem_refsOfNode_arrProp hkv hrr))]

/-- C6: a `setSetting`/`setStyle` write never mutates the current user
configuration object: the updater deep-clones the current configuration,
mutates the clone in place at the written path, and returns the clone's
root, which is a different object (`r1 ≠ cur`); the value tree readable
from the original root is unchanged for every read depth.  The
hypotheses say the heap is well formed (`heapOk`) and the current
configuration exists; the written path and value are arbitrary, covering
both the `setSetting` and the `setStyle` write. -/
theorem C6_clone_then_set_frame (fuel fuel2 : Nat) (h : Heap) (cur : Nat)
    (segs : List String) (v : HVal) (h2 : Heap) (r1 : Nat)
    (hok : heapOk h = true)
    (hcur : (lookupCell h cur).isSome = true)
    (hrun : cloneThenSet fuel h cur segs v = some (h2, r1)) :
    r1 ≠ cur ∧ readVal fuel2 h2 (.ref cur) = readVal fuel2 h (.ref cur) := by
  have hd := heapOk_domLt h hok
  have hclosed := heapOk_closed h hok
  unfold cloneThenSet at hrun
  cases hc : cloneVal fuel h (.ref cur) with
  | none => rw [hc] at hrun; exact absurd hrun (by simp)
  | some p =>
      obtain ⟨h1, v1⟩ := p
      rw [hc] at hrun
      cases v1 with
      | ref r1x =>
          simp only [Option.some.injEq, Prod.mk.injEq] at hrun
          obtain ⟨rfl, rfl⟩ := hrun
          obtain ⟨⟨hnext, hlow, hhigh⟩, hd1, hvhigh⟩ :=
            cloneVal_ext fuel h (.ref cur) h1 (.ref r1x) hc hd
          have hr1 : h.next ≤ r1x := hvhigh r1x rfl
          have hcurlt : cur < h.next := hd cur hcur
          have hframe := hset_frame segs h1 r1x v h.next hr1 hnext hhigh
          have hagree : ∀ r, (lookupCell h r).isSome →
              lookupCell (hset h1 r1x segs v) r = lookupCell h r := by
            intro r hrs
            have hrlt : r < h.next := hd r hrs
            rw [hframe r hrlt, hlow r hrlt]
          exact ⟨by omega, readVal_stable fuel2 h _ (.ref cur) hagree hclosed
            (fun rr hrr => by cases hrr; exact hcur)⟩
      | undef => exact absurd hrun (by simp)
      | null => exact absurd hrun (by simp)
      | bool b => exact absurd hrun (by simp)
      | num n => exact absurd hrun (by simp)
      | str s => exact absurd hrun (by simp)

/-- Witness for C6: cloning then setting `a := 2` on a one-object heap
leaves the original object's value unchanged and returns a fresh root. -/
theorem C6_clone_then_set_frame_witness :
    (1 : Nat) ≠ 0 ∧
    readVal 3 ⟨[(0, .obj [("a", .num 1)]), (1, .obj [("a", .num 2)])], 2⟩
      (.ref 0) = readVal 3 ⟨[(0, .obj [("a", .num 1)])], 1⟩ (.ref 0) :=
  C6_clone_then_set_frame 3 3 ⟨[(0, .obj [("a", .num 1)])], 1⟩ 0 ["a"]
    (.num 2) ⟨[(0, .obj [("a", .num 1)]), (1, .obj [("a", .num 2)])], 2⟩ 1
    (by decide) (by decide) rfl

end Gutenberg
